import Mathlib

/-! # Token-bucket rate limiter (`main.go`)

A shallow embedding of the `RateLimiter` of `main.go` and of what acts on it:
the callers of `Allow`, the callers of `Stop`, the ticker, and the goroutine
that `NewRateLimiter` starts on `startReplenishment`.

Go `int` fields are embedded as `Int`.  The only arithmetic in the program is
`rl.tokens++`, guarded by `rl.tokens < rl.capacity`, and `rl.tokens--`, guarded
by `rl.tokens > 0`; neither can leave the machine range when the fields are in
it (`replenish_inInt`, `Allow_inInt` below), so no wrap-around is modelled.

The mutex makes the body of `Allow` and the critical section of the `ticker.C`
case run one at a time; each is embedded as one function on the limiter (that
they do run one at a time is proved at the end, over threads that run `Lock`,
the test of the `if`, its body and `Unlock` as separate statements).  The
goroutine is followed statement by statement: it waits at its `select`, or it
has received a tick and has not yet run the critical section, or it has
returned.  The two channels are embedded by what the `select` can see of them:
whether a tick waits in `ticker.C`, and whether `stopTicker` has been closed.
-/

/-- Where the goroutine running `startReplenishment` stands: at the `select`
of line 35, between the receive of line 36 and the critical section of lines
37-41, or past the `return` of line 43. -/
inductive Goroutine where
  | atSelect
  | holdsTick
  | returned
deriving DecidableEq, Repr

/-- The `RateLimiter` struct together with its goroutine.  `rate`, `capacity`
and `tokens` are the integer fields.  `tickerStopped` is set by
`rl.ticker.Stop()`; `tickBuffered` says that a tick waits in `rl.ticker.C`;
`stopClosed` says that `rl.stopTicker` has been closed; `goroutine` is where
`startReplenishment` stands. -/
structure RateLimiter where
  rate : Int
  capacity : Int
  tokens : Int
  tickerStopped : Bool
  tickBuffered : Bool
  stopClosed : Bool
  goroutine : Goroutine
deriving DecidableEq, Repr

/-- `NewRateLimiter(rate, capacity)`: the struct literal of lines 20-26 and the
`go rl.startReplenishment()` of line 28.  The ticker is fresh (not stopped,
nothing delivered), the stop channel is open, the goroutine is at its
`select`. -/
def NewRateLimiter (rate capacity : Int) : RateLimiter :=
  { rate := rate
    capacity := capacity
    tokens := capacity
    tickerStopped := false
    tickBuffered := false
    stopClosed := false
    goroutine := Goroutine.atSelect }

/-- A whole operation on the limiter: a call of `Allow`, or one pass of the
goroutine through the `case <-rl.ticker.C` branch (the replenishment tick of
lines 37-41). -/
inductive Op where
  | allow
  | tick
deriving DecidableEq, Repr

/-- Where a thread stands in the operation it runs: before `rl.mu.Lock()`;
holding the mutex, before the `if`; past the test of the `if`, which read
`seen` from `rl.tokens`; past the body of the `if`, about to run
`rl.mu.Unlock()` and to deliver `ret`. -/
inductive Pc where
  | idle
  | locked
  | tested (seen : Int)
  | returning (ret : Bool)
deriving DecidableEq, Repr

/-- A thread of the program: a goroutine calling `Allow`, or the replenishment
goroutine.  `prog` lists the operations it has still to run, the first being
the one it is in; `rets` lists what its completed operations delivered (for a
tick: whether it added a token). -/
structure Thread where
  prog : List Op
  pc : Pc
  rets : List Bool
deriving DecidableEq, Repr

/-- The limiter shared by the threads: the struct, the holder of `rl.mu` (the
index of a thread, or none), and the threads. -/
structure Shared where
  rl : RateLimiter
  owner : Option Nat
  threads : List Thread
deriving DecidableEq, Repr

/-- The record of a thread passing the `if` of its operation: which thread,
which operation, and what the operation delivers. -/
structure Commit where
  thread : Nat
  op : Op
  ret : Bool
deriving DecidableEq, Repr

namespace RateLimiter

/-- The critical section of the `case <-rl.ticker.C` branch (lines 37-41):
`if rl.tokens < rl.capacity { rl.tokens++ }`. -/
def replenish (rl : RateLimiter) : RateLimiter :=
  if rl.tokens < rl.capacity then { rl with tokens := rl.tokens + 1 } else rl

/-- The `select` of `startReplenishment` takes `case <-rl.ticker.C` (line 36):
possible when the goroutine is at the `select` and a tick waits in the channel;
the tick leaves the channel.  `none` when the case cannot be taken. -/
def startReplenishment_recv (rl : RateLimiter) : Option RateLimiter :=
  if rl.goroutine = Goroutine.atSelect ∧ rl.tickBuffered = true then
    some { rl with tickBuffered := false, goroutine := Goroutine.holdsTick }
  else none

/-- The goroutine, having received a tick, runs lines 37-41 and goes back to
the `select`: one replenishment tick.  `none` when it holds no tick. -/
def startReplenishment_tick (rl : RateLimiter) : Option RateLimiter :=
  if rl.goroutine = Goroutine.holdsTick then
    some (replenish { rl with goroutine := Goroutine.atSelect })
  else none

/-- The `select` of `startReplenishment` takes `case <-rl.stopTicker` (lines
42-43): possible when the goroutine is at the `select` and the channel is
closed; the function returns.  `none` when the case cannot be taken. -/
def startReplenishment_return (rl : RateLimiter) : Option RateLimiter :=
  if rl.goroutine = Goroutine.atSelect ∧ rl.stopClosed = true then
    some { rl with goroutine := Goroutine.returned }
  else none

/-- `Allow` (lines 49-61): the new limiter and the returned boolean.  The
`fmt.Println` of line 53 writes `rl.tokens` to standard output and touches no
field. -/
def Allow (rl : RateLimiter) : RateLimiter × Bool :=
  if rl.tokens > 0 then ({ rl with tokens := rl.tokens - 1 }, true) else (rl, false)

/-- `Stop` (lines 64-67): `rl.ticker.Stop()` then `close(rl.stopTicker)`.
Closing a channel that is already closed panics in Go; `none` is that panic,
`some` is a normal return.  After `ticker.Stop` no tick is sent, and a tick
that still waits in `ticker.C` is not received once `Stop` has returned (Go
1.23 and later).  `Stop` takes no lock and does not wait for the goroutine: a
tick that the goroutine has already received stays with it. -/
def Stop (rl : RateLimiter) : Option RateLimiter :=
  let rl1 := { rl with tickerStopped := true, tickBuffered := false }
  if rl1.stopClosed then none else some { rl1 with stopClosed := true }

/-- The ticker reaches the end of an interval.  A running ticker sends a tick
on its channel, which holds one tick (a tick sent while one waits is dropped);
a stopped ticker sends nothing. -/
def fire (rl : RateLimiter) : RateLimiter :=
  if rl.tickerStopped then rl else { rl with tickBuffered := true }

/-- What can happen to a limiter: a call of `Allow`, a call of `Stop`, the
ticker reaching the end of an interval, and the three moves of the goroutine
(`recv`: the `select` receives a tick; `tick`: the critical section runs, a
replenishment tick; `exit`: the `select` sees the closed stop channel and the
goroutine returns). -/
inductive Event where
  | allow
  | stop
  | fire
  | recv
  | tick
  | exit
deriving DecidableEq, Repr

/-- One event.  The result is the new limiter and, for `allow`, the boolean
that `Allow` returned.  `none` means that the event does not complete here: a
move of the goroutine that it cannot make, or a `Stop` that panics. -/
def step (rl : RateLimiter) : Event → Option (RateLimiter × Option Bool)
  | .allow => some ((Allow rl).1, some (Allow rl).2)
  | .stop => (Stop rl).map fun rl1 => (rl1, none)
  | .fire => some (fire rl, none)
  | .recv => (startReplenishment_recv rl).map fun rl1 => (rl1, none)
  | .tick => (startReplenishment_tick rl).map fun rl1 => (rl1, none)
  | .exit => (startReplenishment_return rl).map fun rl1 => (rl1, none)

/-- A sequence of events from `rl`: the final limiter and the booleans
returned by the `Allow` calls, in order; `none` when some event of the
sequence does not complete. -/
def run (rl : RateLimiter) : List Event → Option (RateLimiter × List Bool)
  | [] => some (rl, [])
  | e :: es =>
    match step rl e with
    | none => none
    | some (rl1, r) =>
      match run rl1 es with
      | none => none
      | some (rl2, rs) => some (rl2, r.toList ++ rs)

/-- What an observer sees of a sequence of events: after each event the value
of `tokens` and the boolean returned if the event was an `Allow` call; the
observation ends with `none` at the first event that does not complete. -/
def trace (rl : RateLimiter) : List Event → List (Option (Int × Option Bool))
  | [] => []
  | e :: es =>
    match step rl e with
    | none => [none]
    | some (rl1, r) => some (rl1.tokens, r) :: trace rl1 es

/-- The limiter after `n` consecutive `Allow` calls, and their results. -/
def allowN : Nat → RateLimiter → RateLimiter × List Bool
  | 0, rl => (rl, [])
  | n + 1, rl => ((allowN n (Allow rl).1).1, (Allow rl).2 :: (allowN n (Allow rl).1).2)

/-- The number of calls that return `true` among `n` consecutive `Allow`
calls. -/
def grants (n : Nat) (rl : RateLimiter) : Nat :=
  (allowN n rl).2.count true

/-- The limiter after `n` replenishment ticks in a row. -/
def replenishN : Nat → RateLimiter → RateLimiter
  | 0, rl => rl
  | n + 1, rl => replenishN n (replenish rl)

/-- The same limiter with another configured rate. -/
def withRate (r : Int) (rl : RateLimiter) : RateLimiter := { rl with rate := r }

/-- The limiter of `TestRateLimiter_Stop` after its two `Allow` calls: no
token left, no tick sent yet, the goroutine at its `select`. -/
def exhaustedIdle : RateLimiter :=
  { rate := 1, capacity := 2, tokens := 0, tickerStopped := false,
    tickBuffered := false, stopClosed := false, goroutine := Goroutine.atSelect }

/-- The same limiter one ticker interval later, when the goroutine has
received the first tick and has not yet run the critical section. -/
def exhaustedHoldsTick : RateLimiter :=
  { rate := 1, capacity := 2, tokens := 0, tickerStopped := false,
    tickBuffered := false, stopClosed := false, goroutine := Goroutine.holdsTick }

/-- The limiter `exhaustedIdle` after `Stop`. -/
def exhaustedStopped : RateLimiter :=
  { rate := 1, capacity := 2, tokens := 0, tickerStopped := true,
    tickBuffered := false, stopClosed := true, goroutine := Goroutine.atSelect }

/-- A limiter of capacity 2 that has been stopped and whose goroutine has
returned, with one token left. -/
def stoppedExample : RateLimiter :=
  { rate := 1, capacity := 2, tokens := 1, tickerStopped := true,
    tickBuffered := false, stopClosed := true, goroutine := Goroutine.returned }

/-- The results of `n` `Allow` calls of which the first `t` are granted: `t`
times `true` (or `n` times, if `n < t`), then `false`. -/
def burstResults (t n : Nat) : List Bool :=
  List.replicate (min n t) true ++ List.replicate (n - t) false

/-- Along a sequence of events from `rl`, the number of replenishment ticks
that found `tokens < capacity` (counted as far as the sequence completes). -/
def effectiveTicks (rl : RateLimiter) : List Event → Nat
  | [] => 0
  | e :: es =>
    match step rl e with
    | none => 0
    | some (rl1, _) =>
      (if e = Event.tick ∧ rl.tokens < rl.capacity then 1 else 0) + effectiveTicks rl1 es

/-- The events of `n` ticker intervals each followed at once by the goroutine
receiving the tick and running the critical section. -/
def tickRounds : Nat → List Event
  | 0 => []
  | n + 1 => Event.fire :: Event.recv :: Event.tick :: tickRounds n

/-- The limiter `NewRateLimiter(2, 3)` after one granted `Allow`, the end of a
ticker interval and the receive of the tick by the goroutine. -/
def twoLeftHoldsTick : RateLimiter :=
  { rate := 2, capacity := 3, tokens := 2, tickerStopped := false,
    tickBuffered := false, stopClosed := false, goroutine := Goroutine.holdsTick }

/-- The limiter `NewRateLimiter(2, 3)` after one granted `Allow`, before any
tick. -/
def twoLeftIdle : RateLimiter :=
  { rate := 2, capacity := 3, tokens := 2, tickerStopped := false,
    tickBuffered := false, stopClosed := false, goroutine := Goroutine.atSelect }

/-- The limiter `NewRateLimiter(2, 3)` after one granted `Allow` and `Stop`,
before any tick. -/
def twoLeftStopped : RateLimiter :=
  { rate := 2, capacity := 3, tokens := 2, tickerStopped := true,
    tickBuffered := false, stopClosed := true, goroutine := Goroutine.atSelect }

/-- The number of ticks that the goroutine has received and not yet applied:
one between line 36 and the critical section, none elsewhere. -/
def heldTicks (rl : RateLimiter) : Int :=
  if rl.goroutine = Goroutine.holdsTick then 1 else 0

/-- The `if` statement of an operation whose test read `seen`: for `Allow`,
`if rl.tokens > 0 { rl.tokens--; return true }` and `return false` (lines
55-60); for the tick, `if rl.tokens < rl.capacity { rl.tokens++ }` (lines
38-40).  The increment and the decrement act on the value `rl.tokens` has when
they run. -/
def ifBody (rl : RateLimiter) (seen : Int) : Op → RateLimiter × Bool
  | .allow => if seen > 0 then ({ rl with tokens := rl.tokens - 1 }, true) else (rl, false)
  | .tick =>
    if seen < rl.capacity then ({ rl with tokens := rl.tokens + 1 }, true) else (rl, false)

/-- One statement of thread `i`, if it can run one: `rl.mu.Lock()` when no
thread holds the mutex; the test of the `if`, reading `rl.tokens`; the body of
the `if`; `rl.mu.Unlock()`, after which the thread is at its next operation.  A
thread that waits for the mutex, or has nothing left to run, does not move.
With the new state comes the record of the operation when the statement is the
`if` body. -/
def threadStep (c : Shared) (i : Nat) : Shared × Option Commit :=
  match c.threads[i]? with
  | none => (c, none)
  | some t =>
    match t.prog, t.pc with
    | [], _ => (c, none)
    | _ :: _, .idle =>
      if c.owner = none then
        ({ c with owner := some i, threads := c.threads.set i { t with pc := .locked } }, none)
      else (c, none)
    | _ :: _, .locked =>
      ({ c with threads := c.threads.set i { t with pc := .tested c.rl.tokens } }, none)
    | op :: _, .tested seen =>
      ({ c with
          rl := (ifBody c.rl seen op).1
          threads := c.threads.set i { t with pc := .returning (ifBody c.rl seen op).2 } },
        some { thread := i, op := op, ret := (ifBody c.rl seen op).2 })
    | _ :: rest, .returning r =>
      ({ c with
          owner := none
          threads := c.threads.set i { prog := rest, pc := .idle, rets := t.rets ++ [r] } },
        none)

/-- A concurrent execution: the threads named by the schedule run one statement
each, in that order.  The result is the final state and the records of the
operations in the order in which they passed their `if`. -/
def concurrentRun (c : Shared) : List Nat → Shared × List Commit
  | [] => (c, [])
  | i :: sched =>
    ((concurrentRun (threadStep c i).1 sched).1,
      (threadStep c i).2.toList ++ (concurrentRun (threadStep c i).1 sched).2)

/-- The threads at the start: each before the `Lock` of its first operation,
the mutex free. -/
def start (rl : RateLimiter) (progs : List (List Op)) : Shared :=
  { rl := rl
    owner := none
    threads := progs.map fun p => { prog := p, pc := Pc.idle, rets := [] } }

/-- A whole operation run alone: `Allow`, or the critical section of the
tick (which delivers whether it added a token). -/
def applyOp (rl : RateLimiter) : Op → RateLimiter × Bool
  | .allow => Allow rl
  | .tick => (replenish rl, decide (rl.tokens < rl.capacity))

/-- A serial execution: whole operations one after the other. -/
def serialRun (rl : RateLimiter) : List Op → RateLimiter × List Bool
  | [] => (rl, [])
  | op :: ops =>
    ((serialRun (applyOp rl op).1 ops).1,
      (applyOp rl op).2 :: (serialRun (applyOp rl op).1 ops).2)

/-- The operations of a thread that have not passed their `if`. -/
def remaining (t : Thread) : List Op :=
  match t.pc with
  | .returning _ => t.prog.tail
  | _ => t.prog

/-- The result of the operation of a thread that has passed its `if` and not
yet returned. -/
def pending (t : Thread) : List Bool :=
  match t.pc with
  | .returning r => [r]
  | _ => []

/-- The records of thread `i` in a list of records. -/
def commitsOf (i : Nat) (log : List Commit) : List Commit :=
  log.filter fun e => decide (e.thread = i)

/-- The number of `Allow` calls granted in a list of records. -/
def grantsIn (log : List Commit) : Nat :=
  (log.filter fun e => decide (e.op = Op.allow ∧ e.ret = true)).length

/-- The number of ticks that added a token in a list of records. -/
def refillsIn (log : List Commit) : Nat :=
  (log.filter fun e => decide (e.op = Op.tick ∧ e.ret = true)).length

/-- What every concurrent execution from `start rl0 progs` keeps, `log` being
the records so far: the serial execution of the recorded operations gives the
shared struct and the recorded results; a thread holds the mutex exactly when
it is past `Lock`; a test that has been made read the present `tokens`; and
the records of each thread are its operations in program order, each once,
with the results the thread has or is about to deliver. -/
structure Linearised (rl0 : RateLimiter) (progs : List (List Op)) (c : Shared)
    (log : List Commit) : Prop where
  serial : serialRun rl0 (log.map Commit.op) = (c.rl, log.map Commit.ret)
  mutex : ∀ (i : Nat) (t : Thread), c.threads[i]? = some t → (c.owner = some i ↔ t.pc ≠ Pc.idle)
  fresh : ∀ (i : Nat) (t : Thread) (seen : Int), c.threads[i]? = some t → t.pc = Pc.tested seen → seen = c.rl.tokens
  order : ∀ (i : Nat) (t : Thread), c.threads[i]? = some t →
    progs[i]? = some ((commitsOf i log).map Commit.op ++ remaining t) ∧
    (commitsOf i log).map Commit.ret = t.rets ++ pending t

/-- The range of a 64-bit Go `int`. -/
def inInt (x : Int) : Prop := -(2 ^ 63 : Int) ≤ x ∧ x < 2 ^ 63

/-! ## `Allow` and the critical section -/

theorem replenish_inInt (rl : RateLimiter) (hc : inInt rl.capacity) (ht : inInt rl.tokens) :
    inInt (replenish rl).tokens := by
  unfold replenish inInt at *
  split
  · show _ ≤ rl.tokens + 1 ∧ rl.tokens + 1 < _
    omega
  · exact ht

theorem Allow_inInt (rl : RateLimiter) (ht : inInt rl.tokens) : inInt (Allow rl).1.tokens := by
  unfold Allow inInt at *
  split
  · show _ ≤ rl.tokens - 1 ∧ rl.tokens - 1 < _
    omega
  · exact ht

theorem replenish_eq (rl : RateLimiter) :
    replenish rl
      = { rl with tokens := if rl.tokens < rl.capacity then rl.tokens + 1 else rl.tokens } := by
  unfold replenish
  split <;> rfl

theorem replenish_tokens (rl : RateLimiter) :
    (replenish rl).tokens = if rl.tokens < rl.capacity then rl.tokens + 1 else rl.tokens := by
  rw [replenish_eq]

theorem Allow_fst (rl : RateLimiter) :
    (Allow rl).1 = { rl with tokens := if rl.tokens > 0 then rl.tokens - 1 else rl.tokens } := by
  unfold Allow
  split <;> rfl

theorem Allow_tokens (rl : RateLimiter) :
    (Allow rl).1.tokens = if rl.tokens > 0 then rl.tokens - 1 else rl.tokens := by
  rw [Allow_fst]

theorem Allow_result (rl : RateLimiter) : (Allow rl).2 = decide (rl.tokens > 0) := by
  unfold Allow
  split <;> simp [*]

/-- Claim C1: `Allow` returns `true` exactly when `tokens > 0` before the call;
when it returns `true`, `tokens` afterwards is the previous value minus 1 (and
no other field changes); when it returns `false`, the limiter is unchanged. -/
theorem Allow_spec (rl : RateLimiter) :
    ((Allow rl).2 = true ↔ rl.tokens > 0) ∧
    ((Allow rl).2 = true →
      (Allow rl).1.tokens = rl.tokens - 1 ∧ (Allow rl).1 = { rl with tokens := rl.tokens - 1 }) ∧
    ((Allow rl).2 = false → (Allow rl).1 = rl) := by
  unfold Allow
  by_cases h : rl.tokens > 0 <;> simp [h]

/-! ## The effect of one event and of a sequence of events -/

theorem Stop_eq_none (rl : RateLimiter) : Stop rl = none ↔ rl.stopClosed = true := by
  unfold Stop
  by_cases h : rl.stopClosed = true <;> simp [h]

theorem Stop_eq_some {rl rl1 : RateLimiter} (h : Stop rl = some rl1) :
    rl.stopClosed = false ∧
    rl1 = { rl with tickerStopped := true, tickBuffered := false, stopClosed := true } := by
  unfold Stop at h
  by_cases hc : rl.stopClosed = true
  · simp [hc] at h
  · simp only [hc, Bool.false_eq_true, if_false, Option.some.injEq] at h
    exact ⟨by simpa using hc, h.symm⟩

/-- The six ways in which an event completes. -/
theorem step_cases {rl rl1 : RateLimiter} {e : Event} {r : Option Bool}
    (h : step rl e = some (rl1, r)) :
    (e = Event.allow ∧ rl1 = (Allow rl).1 ∧ r = some (Allow rl).2) ∨
    (e = Event.stop ∧ rl.stopClosed = false ∧
      rl1 = { rl with tickerStopped := true, tickBuffered := false, stopClosed := true } ∧
      r = none) ∨
    (e = Event.fire ∧ rl1 = fire rl ∧ r = none) ∨
    (e = Event.recv ∧ rl.goroutine = Goroutine.atSelect ∧ rl.tickBuffered = true ∧
      rl1 = { rl with tickBuffered := false, goroutine := Goroutine.holdsTick } ∧ r = none) ∨
    (e = Event.tick ∧ rl.goroutine = Goroutine.holdsTick ∧
      rl1 = replenish { rl with goroutine := Goroutine.atSelect } ∧ r = none) ∨
    (e = Event.exit ∧ rl.goroutine = Goroutine.atSelect ∧ rl.stopClosed = true ∧
      rl1 = { rl with goroutine := Goroutine.returned } ∧ r = none) := by
  cases e
  · simp only [step, Option.some.injEq, Prod.mk.injEq] at h
    exact Or.inl ⟨rfl, h.1.symm, h.2.symm⟩
  · simp only [step] at h
    cases hst : Stop rl with
    | none => simp [hst] at h
    | some q =>
      simp only [hst, Option.map_some', Option.some.injEq, Prod.mk.injEq] at h
      obtain ⟨hc, hq⟩ := Stop_eq_some hst
      exact Or.inr (Or.inl ⟨rfl, hc, h.1 ▸ hq, h.2.symm⟩)
  · simp only [step, Option.some.injEq, Prod.mk.injEq] at h
    exact Or.inr (Or.inr (Or.inl ⟨rfl, h.1.symm, h.2.symm⟩))
  · simp only [step, startReplenishment_recv] at h
    split at h
    · rename_i hg
      simp only [Option.map_some', Option.some.injEq, Prod.mk.injEq] at h
      exact Or.inr (Or.inr (Or.inr (Or.inl ⟨rfl, hg.1, hg.2, h.1.symm, h.2.symm⟩)))
    · simp at h
  · simp only [step, startReplenishment_tick] at h
    split at h
    · rename_i hg
      simp only [Option.map_some', Option.some.injEq, Prod.mk.injEq] at h
      exact Or.inr (Or.inr (Or.inr (Or.inr (Or.inl ⟨rfl, hg, h.1.symm, h.2.symm⟩))))
    · simp at h
  · simp only [step, startReplenishment_return] at h
    split at h
    · rename_i hg
      simp only [Option.map_some', Option.some.injEq, Prod.mk.injEq] at h
      exact Or.inr (Or.inr (Or.inr (Or.inr (Or.inr ⟨rfl, hg.1, hg.2, h.1.symm, h.2.symm⟩))))
    · simp at h

/-- What one event does to the integer fields: `rate` and `capacity` are kept,
and `tokens` is kept, or goes up by one from below `capacity`, or goes down by
one from above zero. -/
theorem step_ints {rl rl1 : RateLimiter} {e : Event} {r : Option Bool}
    (h : step rl e = some (rl1, r)) :
    rl1.rate = rl.rate ∧ rl1.capacity = rl.capacity ∧
    (rl1.tokens = rl.tokens ∨ (rl1.tokens = rl.tokens + 1 ∧ rl.tokens < rl.capacity) ∨
      (rl1.tokens = rl.tokens - 1 ∧ 0 < rl.tokens)) := by
  rcases step_cases h with ⟨-, h1, -⟩ | ⟨-, -, h1, -⟩ | ⟨-, h1, -⟩ | ⟨-, -, -, h1, -⟩ |
    ⟨-, -, h1, -⟩ | ⟨-, -, -, h1, -⟩
  · subst h1
    rw [Allow_fst]
    refine ⟨rfl, rfl, ?_⟩
    show (if rl.tokens > 0 then rl.tokens - 1 else rl.tokens) = _ ∨ _
    split
    · right; right; exact ⟨rfl, by omega⟩
    · left; rfl
  · subst h1
    exact ⟨rfl, rfl, Or.inl rfl⟩
  · subst h1
    unfold fire
    split <;> exact ⟨rfl, rfl, Or.inl rfl⟩
  · subst h1
    exact ⟨rfl, rfl, Or.inl rfl⟩
  · subst h1
    rw [replenish_eq]
    refine ⟨rfl, rfl, ?_⟩
    show (if rl.tokens < rl.capacity then rl.tokens + 1 else rl.tokens) = _ ∨ _
    split
    · right; left; exact ⟨rfl, by assumption⟩
    · left; rfl
  · subst h1
    exact ⟨rfl, rfl, Or.inl rfl⟩

/-- Unfolding of `run` at a non-empty sequence that completes. -/
theorem run_cons {rl rl2 : RateLimiter} {e : Event} {es : List Event} {outs : List Bool}
    (h : run rl (e :: es) = some (rl2, outs)) :
    ∃ rl1 r rs, step rl e = some (rl1, r) ∧ run rl1 es = some (rl2, rs) ∧
      outs = r.toList ++ rs := by
  cases hs : step rl e with
  | none => simp [run, hs] at h
  | some p =>
    obtain ⟨rl1, r⟩ := p
    cases hr : run rl1 es with
    | none => simp [run, hs, hr] at h
    | some q =>
      obtain ⟨rl3, rs⟩ := q
      simp only [run, hs, hr, Option.some.injEq, Prod.mk.injEq] at h
      obtain ⟨h1, h2⟩ := h
      subst h1
      exact ⟨rl1, r, rs, rfl, hr, h2.symm⟩

/-- A property of limiters kept by every event holds after every sequence of
events. -/
theorem run_invariant (P : RateLimiter → Prop)
    (hstep : ∀ rl e rl1 r, P rl → step rl e = some (rl1, r) → P rl1) :
    ∀ (es : List Event) (rl rl2 : RateLimiter) (outs : List Bool),
      P rl → run rl es = some (rl2, outs) → P rl2 := by
  intro es
  induction es with
  | nil =>
    intro rl rl2 outs hP h
    simp only [run, Option.some.injEq, Prod.mk.injEq] at h
    exact h.1 ▸ hP
  | cons e es ih =>
    intro rl rl2 outs hP h
    obtain ⟨rl1, r, rs, hs, hr, -⟩ := run_cons h
    exact ih rl1 rl2 rs (hstep rl e rl1 r hP hs) hr

/-- From a limiter with `tokens ≤ capacity`, every sequence of events keeps
`capacity`, keeps `tokens ≤ capacity`, and keeps `0 ≤ tokens` if it held. -/
theorem run_bounds (rl : RateLimiter) {rl2 : RateLimiter} {es : List Event} {outs : List Bool}
    (hle : rl.tokens ≤ rl.capacity) (h : run rl es = some (rl2, outs)) :
    rl2.capacity = rl.capacity ∧ rl2.tokens ≤ rl.capacity ∧ (0 ≤ rl.tokens → 0 ≤ rl2.tokens) := by
  have key := run_invariant
    (fun s => s.capacity = rl.capacity ∧ s.tokens ≤ rl.capacity ∧ (0 ≤ rl.tokens → 0 ≤ s.tokens))
    (by
      intro s e s1 r hP hs
      obtain ⟨-, hc, ht⟩ := step_ints hs
      obtain ⟨h1, h2, h3⟩ := hP
      refine ⟨by omega, by omega, fun h0 => ?_⟩
      have := h3 h0
      omega)
    es rl rl2 outs ⟨rfl, hle, fun h0 => h0⟩ h
  exact key

/-- `n` consecutive `Allow` calls are the sequence of `n` events `allow`. -/
theorem run_allow (n : Nat) (rl : RateLimiter) :
    run rl (List.replicate n Event.allow) = some (allowN n rl) := by
  induction n generalizing rl with
  | zero => rfl
  | succ n ih =>
    simp only [List.replicate_succ, run, step, ih, allowN]
    rfl

/-- Claim C2: for a limiter created by `NewRateLimiter` with a positive
capacity, every limiter reached by a sequence of `Allow` calls, `Stop`, ticker
firings and moves of the replenishment goroutine (receiving a tick, the
replenishment tick itself, returning) has `0 ≤ tokens ≤ capacity`. -/
theorem reachable_tokens_bounds (rate capacity : Int) (hcap : 0 < capacity)
    (es : List Event) (rl : RateLimiter) (outs : List Bool)
    (h : run (NewRateLimiter rate capacity) es = some (rl, outs)) :
    0 ≤ rl.tokens ∧ rl.tokens ≤ rl.capacity ∧ rl.capacity = capacity := by
  have hb := run_bounds (NewRateLimiter rate capacity) (Int.le_refl _) h
  simp only [NewRateLimiter] at hb
  obtain ⟨h1, h2, h3⟩ := hb
  exact ⟨h3 (by omega), by omega, h1⟩

/-- The bounds of claim C2 on a run of `NewRateLimiter(1, 2)` through all six
kinds of event. -/
theorem reachable_tokens_bounds_witness :
    (0 : Int) < 2 ∧
    run (NewRateLimiter 1 2)
        [.allow, .allow, .fire, .recv, .tick, .fire, .recv, .stop, .tick, .exit, .allow]
      = some (stoppedExample, [true, true, true]) ∧
    0 ≤ stoppedExample.tokens ∧ stoppedExample.tokens ≤ stoppedExample.capacity ∧
    stoppedExample.capacity = 2 :=
  ⟨by decide, by decide,
   reachable_tokens_bounds 1 2 (by decide)
     [.allow, .allow, .fire, .recv, .tick, .fire, .recv, .stop, .tick, .exit, .allow]
     stoppedExample [true, true, true] (by decide)⟩

/-! ## Bursts of `Allow` calls -/

/-- A limiter holding `n` tokens grants `n` consecutive `Allow` calls and
denies the next one. -/
theorem allowN_exhaust (n : Nat) (rl : RateLimiter) (h : rl.tokens = (n : Int)) :
    (allowN (n + 1) rl).2 = List.replicate n true ++ [false] := by
  induction n generalizing rl with
  | zero =>
    simp only [allowN, Allow_result, List.replicate_zero, List.nil_append]
    simp [h]
  | succ n ih =>
    have hpos : rl.tokens > 0 := by omega
    have ht : (Allow rl).1.tokens = (n : Int) := by
      rw [Allow_tokens, if_pos hpos, h]
      omega
    have hr : (Allow rl).2 = true := by
      rw [Allow_result]
      exact decide_eq_true hpos
    rw [allowN, ih _ ht, hr]
    rfl

/-- Claim C3: for every rate and every positive capacity `C`, on the limiter
returned by `NewRateLimiter(rate, C)`, with no event in between, the first `C`
consecutive `Allow` calls return `true` and the `(C+1)`-th returns `false`;
the same is the run of `C + 1` events `allow`. -/
theorem burst_admission (rate C : Int) (hC : 0 < C) :
    (allowN (C.toNat + 1) (NewRateLimiter rate C)).2 = List.replicate C.toNat true ++ [false] ∧
    (run (NewRateLimiter rate C) (List.replicate (C.toNat + 1) Event.allow)).map Prod.snd
      = some (List.replicate C.toNat true ++ [false]) := by
  have h := allowN_exhaust C.toNat (NewRateLimiter rate C)
    (by simp only [NewRateLimiter]; omega)
  refine ⟨h, ?_⟩
  rw [run_allow, Option.map_some', h]

/-- The burst of `TestRateLimiter_BurstCapacity`: `NewRateLimiter(2, 3)`, three
grants and one denial. -/
theorem burst_admission_witness :
    (0 : Int) < 3 ∧
    (allowN 4 (NewRateLimiter 2 3)).2 = [true, true, true, false] ∧
    (run (NewRateLimiter 2 3) [.allow, .allow, .allow, .allow]).map Prod.snd
      = some [true, true, true, false] :=
  ⟨by decide, burst_admission 2 3 (by decide)⟩

/-- Claim C4: for every limiter with positive capacity and `tokens = 0`, an
immediate `Allow` returns `false`, and after one replenishment tick the next
`Allow` returns `true`: for the critical section alone, and for the goroutine
running it on the tick it has received. -/
theorem replenishment_after_exhaustion (rl : RateLimiter) (hcap : 0 < rl.capacity)
    (h0 : rl.tokens = 0) :
    (Allow rl).2 = false ∧ (Allow (replenish rl)).2 = true ∧
    (rl.goroutine = Goroutine.holdsTick →
      ∃ rl1, step rl Event.tick = some (rl1, none) ∧ (Allow rl1).2 = true) ∧
    ∀ rl1 r, step rl Event.tick = some (rl1, r) → (Allow rl1).2 = true := by
  have hlt : rl.tokens < rl.capacity := by omega
  have key : ∀ rl1 r, step rl Event.tick = some (rl1, r) → (Allow rl1).2 = true := by
    intro rl1 r hs
    rcases step_cases hs with ⟨he, -⟩ | ⟨he, -⟩ | ⟨he, -⟩ | ⟨he, -⟩ | ⟨-, -, h1, -⟩ | ⟨he, -⟩
    any_goals exact absurd he (by decide)
    subst h1
    rw [Allow_result, replenish_tokens]
    apply decide_eq_true
    show (if rl.tokens < rl.capacity then rl.tokens + 1 else rl.tokens) > 0
    rw [if_pos hlt]
    omega
  refine ⟨?_, ?_, ?_, key⟩
  · rw [Allow_result, h0]
    decide
  · rw [Allow_result, replenish_tokens, if_pos hlt, h0]
    decide
  · intro hg
    have hs : step rl Event.tick
        = some (replenish { rl with goroutine := Goroutine.atSelect }, none) := by
      simp [step, startReplenishment_tick, hg]
    exact ⟨_, hs, key _ _ hs⟩

/-- The exhausted limiter of `TestRateLimiter_TokenReplenishment` once the
goroutine has received the first tick. -/
theorem replenishment_after_exhaustion_witness :
    (0 : Int) < exhaustedHoldsTick.capacity ∧ exhaustedHoldsTick.tokens = 0 ∧
    (run exhaustedHoldsTick [.allow, .tick, .allow]).map Prod.snd = some [false, true] ∧
    (Allow exhaustedHoldsTick).2 = false ∧ (Allow (replenish exhaustedHoldsTick)).2 = true ∧
    (exhaustedHoldsTick.goroutine = Goroutine.holdsTick →
      ∃ rl1, step exhaustedHoldsTick Event.tick = some (rl1, none) ∧ (Allow rl1).2 = true) ∧
    ∀ rl1 r, step exhaustedHoldsTick Event.tick = some (rl1, r) → (Allow rl1).2 = true :=
  ⟨by decide, by decide, by decide,
   replenishment_after_exhaustion exhaustedHoldsTick (by decide) (by decide)⟩

/-! ## `Stop` -/

/-- With the ticker stopped, no tick in the channel and none held by the
goroutine, one event keeps all three, does not raise `tokens`, and an `Allow`
that returns `true` found `tokens > 0`. -/
theorem step_frozen {rl rl1 : RateLimiter} {e : Event} {r : Option Bool}
    (hs : rl.tickerStopped = true) (hb : rl.tickBuffered = false)
    (hg : rl.goroutine ≠ Goroutine.holdsTick) (h : step rl e = some (rl1, r)) :
    rl1.tickerStopped = true ∧ rl1.tickBuffered = false ∧
    rl1.goroutine ≠ Goroutine.holdsTick ∧ rl1.tokens ≤ rl.tokens ∧
    (r = some true → 0 < rl.tokens) := by
  rcases step_cases h with ⟨-, h1, h2⟩ | ⟨-, -, h1, h2⟩ | ⟨-, h1, h2⟩ | ⟨-, -, hbuf, -⟩ |
    ⟨-, hhold, -⟩ | ⟨-, -, -, h1, h2⟩
  · subst h1 h2
    rw [Allow_fst, Allow_result]
    refine ⟨hs, hb, hg, ?_, fun hr => by simpa using hr⟩
    show (if rl.tokens > 0 then rl.tokens - 1 else rl.tokens) ≤ rl.tokens
    split <;> omega
  · subst h1 h2
    exact ⟨rfl, rfl, hg, Int.le_refl _, by simp⟩
  · subst h1 h2
    have hf : fire rl = rl := by simp [fire, hs]
    rw [hf]
    exact ⟨hs, hb, hg, Int.le_refl _, by simp⟩
  · rw [hb] at hbuf
    exact absurd hbuf (by decide)
  · exact absurd hhold hg
  · subst h1 h2
    exact ⟨hs, hb, by simp, Int.le_refl _, by simp⟩

/-- With the ticker stopped, no tick in the channel and none held by the
goroutine, no sequence of events raises `tokens`, and from `tokens ≤ 0` every
`Allow` of the sequence returns `false`. -/
theorem run_frozen (es : List Event) :
    ∀ (rl rl2 : RateLimiter) (outs : List Bool),
      rl.tickerStopped = true → rl.tickBuffered = false →
      rl.goroutine ≠ Goroutine.holdsTick → run rl es = some (rl2, outs) →
      rl2.tokens ≤ rl.tokens ∧ (rl.tokens ≤ 0 → ∀ b ∈ outs, b = false) := by
  induction es with
  | nil =>
    intro rl rl2 outs _ _ _ h
    simp only [run, Option.some.injEq, Prod.mk.injEq] at h
    obtain ⟨h1, h2⟩ := h
    subst h1 h2
    exact ⟨Int.le_refl _, by simp⟩
  | cons e es ih =>
    intro rl rl2 outs hs hb hg h
    obtain ⟨rl1, r, rs, hstep, hrun, hout⟩ := run_cons h
    obtain ⟨hs1, hb1, hg1, hle, hr⟩ := step_frozen hs hb hg hstep
    obtain ⟨hle2, hfalse⟩ := ih rl1 rl2 rs hs1 hb1 hg1 hrun
    refine ⟨by omega, fun h0 b hmem => ?_⟩
    subst hout
    rcases List.mem_append.mp hmem with hb1 | hb2
    · cases r with
      | none => simp at hb1
      | some v =>
        simp only [Option.toList, List.mem_singleton] at hb1
        subst hb1
        cases b with
        | false => rfl
        | true => exact absurd (hr rfl) (by omega)
    · exact hfalse (by omega) b hb2

/-- With the ticker stopped and no tick in the channel, one event keeps both,
and `tokens` plus the tick held by the goroutine does not go up. -/
theorem step_stopped {rl rl1 : RateLimiter} {e : Event} {r : Option Bool}
    (hs : rl.tickerStopped = true) (hb : rl.tickBuffered = false)
    (h : step rl e = some (rl1, r)) :
    rl1.tickerStopped = true ∧ rl1.tickBuffered = false ∧
    rl1.tokens + heldTicks rl1 ≤ rl.tokens + heldTicks rl := by
  rcases step_cases h with ⟨-, h1, -⟩ | ⟨-, -, h1, -⟩ | ⟨-, h1, -⟩ | ⟨-, -, hbuf, -⟩ |
    ⟨-, hhold, h1, -⟩ | ⟨-, hsel, -, h1, -⟩
  · subst h1
    rw [Allow_fst]
    refine ⟨hs, hb, ?_⟩
    show (if rl.tokens > 0 then rl.tokens - 1 else rl.tokens) + heldTicks rl ≤ _
    split <;> omega
  · subst h1
    exact ⟨rfl, rfl, Int.le_refl _⟩
  · subst h1
    have hf : fire rl = rl := by simp [fire, hs]
    rw [hf]
    exact ⟨hs, hb, Int.le_refl _⟩
  · rw [hb] at hbuf
    exact absurd hbuf (by decide)
  · subst h1
    rw [replenish_eq]
    refine ⟨hs, hb, ?_⟩
    have h0 : heldTicks rl = 1 := by simp [heldTicks, hhold]
    rw [h0]
    show (if rl.tokens < rl.capacity then rl.tokens + 1 else rl.tokens) + 0 ≤ rl.tokens + 1
    split <;> omega
  · subst h1
    refine ⟨hs, hb, ?_⟩
    have h0 : heldTicks rl = 0 := by simp [heldTicks, hsel]
    rw [h0]
    exact Int.le_refl _

/-- What `Stop` ensures.  In every limiter reached after `Stop` has returned
the ticker is stopped and its channel is empty, and `tokens` is at most its
value at `Stop` plus the tick that the goroutine held then.  When the
goroutine held no tick, `tokens` never exceeds its value at `Stop`, and a
limiter that had `tokens = 0` returns `false` from every later `Allow`. -/
theorem stop_halts_replenishment (rl stopped : RateLimiter) (hstop : Stop rl = some stopped)
    (es : List Event) (rl2 : RateLimiter) (outs : List Bool)
    (h : run stopped es = some (rl2, outs)) :
    rl2.tickerStopped = true ∧ rl2.tickBuffered = false ∧
    rl2.tokens ≤ rl.tokens + heldTicks rl ∧
    (rl.goroutine ≠ Goroutine.holdsTick →
      rl2.tokens ≤ rl.tokens ∧ (rl.tokens = 0 → ∀ b ∈ outs, b = false)) := by
  obtain ⟨-, hq⟩ := Stop_eq_some hstop
  subst hq
  have key := run_invariant
    (fun s => s.tickerStopped = true ∧ s.tickBuffered = false ∧
      s.tokens + heldTicks s ≤ rl.tokens + heldTicks rl)
    (fun s e s1 r hP hs => by
      obtain ⟨h1, h2, h3⟩ := step_stopped hP.1 hP.2.1 hs
      exact ⟨h1, h2, Int.le_trans h3 hP.2.2⟩)
    es { rl with tickerStopped := true, tickBuffered := false, stopClosed := true }
    rl2 outs ⟨rfl, rfl, Int.le_refl _⟩ h
  have hnn : 0 ≤ heldTicks rl2 := by
    unfold heldTicks
    split <;> decide
  refine ⟨key.1, key.2.1, by omega, fun hg => ?_⟩
  obtain ⟨h1, h2⟩ := run_frozen es
    { rl with tickerStopped := true, tickBuffered := false, stopClosed := true }
    rl2 outs rfl rfl hg h
  exact ⟨h1, fun h0 => h2 (by show rl.tokens ≤ 0; omega)⟩

/-- Claim C5: the code at the failing input.  `NewRateLimiter(1, 2)` is
exhausted by two `Allow` calls; the first ticker interval ends and the
goroutine receives the tick (line 36); `Stop` is called and returns before the
goroutine takes the mutex; the goroutine then runs lines 37-41.  `tokens` was
0 when `Stop` was called and is 1 afterwards, and the `Allow` that follows
returns `true`, where the claim, the comment of `Stop` and
`TestRateLimiter_Stop` expect no replenishment and `false`. -/
theorem stop_does_not_cancel_received_tick :
    run (NewRateLimiter 1 2) [.allow, .allow, .fire, .recv]
      = some (exhaustedHoldsTick, [true, true]) ∧
    exhaustedHoldsTick.tokens = 0 ∧
    (Stop exhaustedHoldsTick).isSome = true ∧
    ((Stop exhaustedHoldsTick).bind fun rl => (run rl [.tick]).map fun p => p.1.tokens)
      = some 1 ∧
    ((Stop exhaustedHoldsTick).bind fun rl => (run rl [.tick, .allow]).map Prod.snd)
      = some [true] ∧
    (run (NewRateLimiter 1 2) [.allow, .allow, .fire, .recv, .stop, .tick, .exit, .allow]).map
      Prod.snd = some [true, true, true] := by
  decide

/-- The run of `TestRateLimiter_Stop`: exhausted, stopped before the first
tick, then ticker intervals ending, `Allow` calls and the return of the
goroutine; and a tick that only waits in the channel when `Stop` is called is
never applied. -/
theorem stop_halts_replenishment_example :
    run (NewRateLimiter 1 2) [.allow, .allow] = some (exhaustedIdle, [true, true]) ∧
    Stop exhaustedIdle = some exhaustedStopped ∧
    run exhaustedStopped [.fire, .allow, .fire, .exit, .fire, .allow]
      = some ({ exhaustedStopped with goroutine := Goroutine.returned }, [false, false]) ∧
    run (NewRateLimiter 1 2) [.allow, .allow, .fire, .stop, .recv] = none ∧
    (run (NewRateLimiter 1 2) [.allow, .allow, .fire, .stop, .exit, .allow]).map Prod.snd
      = some [true, true, false] :=
  ⟨by decide, by decide, by decide, by decide, by decide⟩

/-- Once `stopTicker` is closed it stays closed. -/
theorem step_stopClosed {rl rl1 : RateLimiter} {e : Event} {r : Option Bool}
    (hc : rl.stopClosed = true) (h : step rl e = some (rl1, r)) : rl1.stopClosed = true := by
  rcases step_cases h with ⟨-, h1, -⟩ | ⟨-, ho, -⟩ | ⟨-, h1, -⟩ | ⟨-, -, -, h1, -⟩ |
    ⟨-, -, h1, -⟩ | ⟨-, -, -, h1, -⟩
  · subst h1
    rw [Allow_fst]
    exact hc
  · rw [hc] at ho
    exact absurd ho (by decide)
  · subst h1
    unfold fire
    split <;> exact hc
  · subst h1
    exact hc
  · subst h1
    rw [replenish_eq]
    exact hc
  · subst h1
    exact hc

/-- Claim C6 fails as stated: on a fresh limiter the first `Stop` returns and
the second one panics on `close(rl.stopTicker)`; a sequence of events with two
`stop` does not complete. -/
theorem second_stop_panics :
    (Stop (NewRateLimiter 1 2)).isSome = true ∧
    (Stop (NewRateLimiter 1 2)).bind Stop = none ∧
    run (NewRateLimiter 1 2) [.stop, .stop] = none := by
  decide

/-- Claim C6, amended: `Stop` is not idempotent.  On a limiter whose stop
channel is open, `Stop` returns normally, with the ticker stopped and its
channel empty, the stop channel closed, and `tokens`, `rate`, `capacity` and
the goroutine as they were; on every limiter reached from there, a further
`Stop` panics. -/
theorem stop_once (rl : RateLimiter) (hopen : rl.stopClosed = false) :
    Stop rl
      = some { rl with tickerStopped := true, tickBuffered := false, stopClosed := true } ∧
    ∀ (es : List Event) (rl2 : RateLimiter) (outs : List Bool),
      run { rl with tickerStopped := true, tickBuffered := false, stopClosed := true } es
        = some (rl2, outs) →
      Stop rl2 = none := by
  refine ⟨?_, ?_⟩
  · simp [Stop, hopen]
  · intro es rl2 outs h
    rw [Stop_eq_none]
    exact run_invariant (fun s => s.stopClosed = true)
      (fun s e s1 r hP hs => step_stopClosed hP hs) es _ rl2 outs rfl h

/-- The first and the later `Stop` on `NewRateLimiter(1, 2)`. -/
theorem stop_once_witness :
    (NewRateLimiter 1 2).stopClosed = false ∧
    Stop (NewRateLimiter 1 2)
      = some { NewRateLimiter 1 2 with
          tickerStopped := true, tickBuffered := false, stopClosed := true } ∧
    ∀ (es : List Event) (rl2 : RateLimiter) (outs : List Bool),
      run { NewRateLimiter 1 2 with
          tickerStopped := true, tickBuffered := false, stopClosed := true } es
        = some (rl2, outs) →
      Stop rl2 = none :=
  ⟨by decide, stop_once (NewRateLimiter 1 2) (by decide)⟩

/-! ## Counting grants -/

theorem grants_succ (n : Nat) (rl : RateLimiter) :
    grants (n + 1) rl = (if (Allow rl).2 = true then 1 else 0) + grants n (Allow rl).1 := by
  simp only [grants, allowN, List.count_cons]
  by_cases h : (Allow rl).2 = true
  · simp [h]
    omega
  · simp [h]

/-- Among `n` consecutive `Allow` calls on a limiter with `tokens ≥ 0`, exactly
`min n tokens` return `true`. -/
theorem grants_eq_min (n : Nat) (rl : RateLimiter) (h : 0 ≤ rl.tokens) :
    grants n rl = min n rl.tokens.toNat := by
  induction n generalizing rl with
  | zero => simp [grants, allowN]
  | succ n ih =>
    rw [grants_succ, Allow_result]
    by_cases hpos : rl.tokens > 0
    · have ht : (Allow rl).1.tokens = rl.tokens - 1 := by rw [Allow_tokens, if_pos hpos]
      rw [ih _ (by omega), ht]
      simp only [hpos, decide_True, if_true]
      omega
    · have ht : (Allow rl).1.tokens = rl.tokens := by rw [Allow_tokens, if_neg hpos]
      rw [ih _ (by omega), ht]
      simp only [hpos, decide_False, Bool.false_eq_true, if_false]
      omega

/-- Claim C7: for every limiter with `tokens = t ≥ 0` and every `N`, among `N`
`Allow` calls with no replenishment tick in between, the number that return
`true` is `min N t`, hence at most `t`; and when the limiter is one reached
from `NewRateLimiter(rate, capacity)`, it is at most `capacity`. -/
theorem grants_bounded (rl : RateLimiter) (N : Nat) (ht : 0 ≤ rl.tokens) :
    grants N rl = min N rl.tokens.toNat ∧ (grants N rl : Int) ≤ rl.tokens ∧
    ∀ (rate capacity : Int) (es : List Event) (outs : List Bool),
      run (NewRateLimiter rate capacity) es = some (rl, outs) → (grants N rl : Int) ≤ capacity := by
  have hg := grants_eq_min N rl ht
  refine ⟨hg, by omega, ?_⟩
  intro rate capacity es outs h
  have hb := run_bounds (NewRateLimiter rate capacity) (Int.le_refl _) h
  simp only [NewRateLimiter] at hb
  omega

/-- Five `Allow` calls on a reachable limiter that holds one token: one
grant. -/
theorem grants_bounded_witness :
    0 ≤ stoppedExample.tokens ∧
    grants 5 stoppedExample = 1 ∧
    grants 5 stoppedExample = min 5 stoppedExample.tokens.toNat ∧
    (grants 5 stoppedExample : Int) ≤ stoppedExample.tokens ∧
    ∀ (rate capacity : Int) (es : List Event) (outs : List Bool),
      run (NewRateLimiter rate capacity) es = some (stoppedExample, outs) →
      (grants 5 stoppedExample : Int) ≤ capacity :=
  ⟨by decide, by decide, grants_bounded stoppedExample 5 (by decide)⟩

/-! ## Replenishment ticks -/

theorem replenishN_fields (n : Nat) (rl : RateLimiter) :
    (replenishN n rl).rate = rl.rate ∧ (replenishN n rl).capacity = rl.capacity := by
  induction n generalizing rl with
  | zero => exact ⟨rfl, rfl⟩
  | succ n ih =>
    rw [replenishN]
    obtain ⟨h1, h2⟩ := ih (replenish rl)
    have hr : (replenish rl).rate = rl.rate := by rw [replenish_eq]
    have hc : (replenish rl).capacity = rl.capacity := by rw [replenish_eq]
    exact ⟨h1.trans hr, h2.trans hc⟩

theorem replenishN_tokens_le (n : Nat) (rl : RateLimiter) (h : rl.tokens ≤ rl.capacity) :
    rl.tokens ≤ (replenishN n rl).tokens ∧ (replenishN n rl).tokens ≤ rl.capacity := by
  induction n generalizing rl with
  | zero => exact ⟨Int.le_refl _, h⟩
  | succ n ih =>
    rw [replenishN]
    have ht := replenish_tokens rl
    have hc : (replenish rl).capacity = rl.capacity := by rw [replenish_eq]
    have := ih (replenish rl) (by rw [ht, hc]; split <;> omega)
    rw [hc] at this
    refine ⟨?_, this.2⟩
    have h3 : rl.tokens ≤ (replenish rl).tokens := by rw [ht]; split <;> omega
    omega

/-- An event other than `allow` never lowers `tokens`. -/
theorem step_idle_mono {rl rl1 : RateLimiter} {e : Event} {r : Option Bool}
    (hne : e ≠ Event.allow) (h : step rl e = some (rl1, r)) : rl.tokens ≤ rl1.tokens := by
  rcases step_cases h with ⟨he, -⟩ | ⟨-, -, h1, -⟩ | ⟨-, h1, -⟩ | ⟨-, -, -, h1, -⟩ |
    ⟨-, -, h1, -⟩ | ⟨-, -, -, h1, -⟩
  · exact absurd he hne
  · subst h1
    exact Int.le_refl _
  · subst h1
    unfold fire
    split <;> exact Int.le_refl _
  · subst h1
    exact Int.le_refl _
  · subst h1
    rw [replenish_tokens]
    show rl.tokens ≤ if rl.tokens < rl.capacity then rl.tokens + 1 else rl.tokens
    split <;> omega
  · subst h1
    exact Int.le_refl _

/-- A sequence of events without `Allow` never lowers `tokens`. -/
theorem run_idle_mono (es : List Event) :
    ∀ (rl rl2 : RateLimiter) (outs : List Bool),
      Event.allow ∉ es → run rl es = some (rl2, outs) → rl.tokens ≤ rl2.tokens := by
  induction es with
  | nil =>
    intro rl rl2 outs _ h
    simp only [run, Option.some.injEq, Prod.mk.injEq] at h
    rw [h.1]
  | cons e es ih =>
    intro rl rl2 outs hno h
    obtain ⟨rl1, r, rs, hstep, hrun, -⟩ := run_cons h
    have hne : e ≠ Event.allow := fun he => hno (he ▸ List.mem_cons_self _ _)
    have h2 := ih rl1 rl2 rs (fun hm => hno (List.mem_cons_of_mem _ hm)) hrun
    have h1 := step_idle_mono hne hstep
    omega

/-- Claim C8: from a limiter with `tokens ≤ capacity`, no number of
replenishment ticks, and no sequence of events without an `Allow` call, raises
`tokens` above `capacity`; a limiter fresh from `NewRateLimiter` that is left
idle keeps `tokens = capacity` after every tick and every such sequence. -/
theorem no_replenishment_beyond_capacity (rl : RateLimiter) (hle : rl.tokens ≤ rl.capacity) :
    (∀ n, (replenishN n rl).tokens ≤ rl.capacity ∧ (replenishN n rl).capacity = rl.capacity) ∧
    (∀ (es : List Event) (rl2 : RateLimiter) (outs : List Bool),
      Event.allow ∉ es → run rl es = some (rl2, outs) →
      rl2.tokens ≤ rl.capacity ∧ rl2.capacity = rl.capacity) ∧
    (∀ (rate capacity : Int) (n : Nat),
      (replenishN n (NewRateLimiter rate capacity)).tokens = capacity) ∧
    (∀ (rate capacity : Int) (es : List Event) (rl2 : RateLimiter) (outs : List Bool),
      Event.allow ∉ es → run (NewRateLimiter rate capacity) es = some (rl2, outs) →
      rl2.tokens = capacity) := by
  refine ⟨fun n => ⟨(replenishN_tokens_le n rl hle).2, (replenishN_fields n rl).2⟩, ?_, ?_, ?_⟩
  · intro es rl2 outs _ h
    have hb := run_bounds rl hle h
    exact ⟨hb.2.1, hb.1⟩
  · intro rate capacity n
    have h1 : (NewRateLimiter rate capacity).tokens = capacity := rfl
    have h2 : (NewRateLimiter rate capacity).capacity = capacity := rfl
    have := replenishN_tokens_le n (NewRateLimiter rate capacity) (Int.le_refl _)
    rw [h1, h2] at this
    omega
  · intro rate capacity es rl2 outs hno h
    have h1 : (NewRateLimiter rate capacity).tokens = capacity := rfl
    have h2 : (NewRateLimiter rate capacity).capacity = capacity := rfl
    have hb := run_bounds (NewRateLimiter rate capacity) (Int.le_refl _) h
    have hm := run_idle_mono es _ rl2 outs hno h
    rw [h2] at hb
    rw [h1] at hm
    omega

/-- Five ticks on the exhausted limiter of capacity 2 stop at 2 tokens, and
three ticker intervals on the idle fresh limiter leave it at 2 tokens. -/
theorem no_replenishment_beyond_capacity_witness :
    exhaustedIdle.tokens ≤ exhaustedIdle.capacity ∧
    (replenishN 5 exhaustedIdle).tokens = 2 ∧
    (run (NewRateLimiter 1 2) [.fire, .recv, .tick, .fire, .recv, .tick, .fire, .recv, .tick]).map
      (fun p => p.1.tokens) = some 2 ∧
    (∀ n, (replenishN n exhaustedIdle).tokens ≤ exhaustedIdle.capacity ∧
      (replenishN n exhaustedIdle).capacity = exhaustedIdle.capacity) :=
  ⟨by decide, by decide, by decide,
   (no_replenishment_beyond_capacity exhaustedIdle (by decide)).1⟩

/-- Claim C9: one replenishment tick sets `tokens` to `tokens + 1` when
`tokens < capacity`, is a no-op when `tokens ≥ capacity`, and changes no other
field of the limiter; the goroutine that has received a tick runs exactly this
and goes back to its `select`. -/
theorem replenish_spec (rl : RateLimiter) :
    (rl.tokens < rl.capacity → replenish rl = { rl with tokens := rl.tokens + 1 }) ∧
    (rl.tokens ≥ rl.capacity → replenish rl = rl) ∧
    (rl.goroutine = Goroutine.holdsTick →
      step rl Event.tick = some (replenish { rl with goroutine := Goroutine.atSelect }, none)) ∧
    (∀ rl1 r, step rl Event.tick = some (rl1, r) →
      rl1 = { rl with
        tokens := if rl.tokens < rl.capacity then rl.tokens + 1 else rl.tokens
        goroutine := Goroutine.atSelect }) := by
  refine ⟨fun h => ?_, fun h => ?_, fun hg => ?_, fun rl1 r h => ?_⟩
  · simp [replenish, h]
  · have : ¬ rl.tokens < rl.capacity := by omega
    simp [replenish, this]
  · simp [step, startReplenishment_tick, hg]
  · rcases step_cases h with ⟨he, -⟩ | ⟨he, -⟩ | ⟨he, -⟩ | ⟨he, -⟩ | ⟨-, -, h1, -⟩ | ⟨he, -⟩
    any_goals exact absurd he (by decide)
    rw [h1, replenish_eq]

/-! ## The configured rate is never read -/

theorem replenish_withRate (r : Int) (rl : RateLimiter) :
    replenish (withRate r rl) = withRate r (replenish rl) := by
  unfold replenish withRate
  split <;> rfl

theorem Allow_withRate (r : Int) (rl : RateLimiter) :
    Allow (withRate r rl) = (withRate r (Allow rl).1, (Allow rl).2) := by
  unfold Allow withRate
  split <;> rfl

theorem Stop_withRate (r : Int) (rl : RateLimiter) :
    Stop (withRate r rl) = (Stop rl).map (withRate r) := by
  unfold Stop withRate
  by_cases h : rl.stopClosed = true <;> simp [h]

/-- An event on the limiter with another rate is the same event, with the same
returned boolean, on the limiter. -/
theorem step_withRate (r : Int) (rl : RateLimiter) (e : Event) :
    step (withRate r rl) e = (step rl e).map fun p => (withRate r p.1, p.2) := by
  cases e
  · simp [step, Allow_withRate]
  · rw [step, Stop_withRate, step]
    cases hst : Stop rl <;> simp
  · simp only [step, fire, Option.map_some', Option.some.injEq, Prod.mk.injEq, and_true]
    unfold withRate
    split <;> rfl
  · simp only [step, startReplenishment_recv]
    by_cases h : rl.goroutine = Goroutine.atSelect ∧ rl.tickBuffered = true
    · rw [if_pos h, if_pos (show (withRate r rl).goroutine = Goroutine.atSelect ∧
        (withRate r rl).tickBuffered = true from h)]
      rfl
    · rw [if_neg h, if_neg (show ¬ ((withRate r rl).goroutine = Goroutine.atSelect ∧
        (withRate r rl).tickBuffered = true) from h)]
      rfl
  · simp only [step, startReplenishment_tick]
    by_cases h : rl.goroutine = Goroutine.holdsTick
    · rw [if_pos h, if_pos (show (withRate r rl).goroutine = Goroutine.holdsTick from h)]
      simp only [Option.map_some', Option.some.injEq, Prod.mk.injEq, and_true]
      exact replenish_withRate r { rl with goroutine := Goroutine.atSelect }
    · rw [if_neg h, if_neg (show ¬ (withRate r rl).goroutine = Goroutine.holdsTick from h)]
      rfl
  · simp only [step, startReplenishment_return]
    by_cases h : rl.goroutine = Goroutine.atSelect ∧ rl.stopClosed = true
    · rw [if_pos h, if_pos (show (withRate r rl).goroutine = Goroutine.atSelect ∧
        (withRate r rl).stopClosed = true from h)]
      rfl
    · rw [if_neg h, if_neg (show ¬ ((withRate r rl).goroutine = Goroutine.atSelect ∧
        (withRate r rl).stopClosed = true) from h)]
      rfl

theorem trace_withRate (r : Int) (es : List Event) :
    ∀ rl : RateLimiter, trace (withRate r rl) es = trace rl es := by
  induction es with
  | nil => intro rl; rfl
  | cons e es ih =>
    intro rl
    rw [trace, trace, step_withRate]
    cases h : step rl e with
    | none => rfl
    | some p =>
      simp only [Option.map_some']
      rw [ih p.1]
      rfl

theorem run_withRate (r : Int) (es : List Event) :
    ∀ rl : RateLimiter,
      run (withRate r rl) es = (run rl es).map fun p => (withRate r p.1, p.2) := by
  induction es with
  | nil => intro rl; rfl
  | cons e es ih =>
    intro rl
    rw [run, run, step_withRate]
    cases h : step rl e with
    | none => rfl
    | some p =>
      simp only [Option.map_some']
      rw [ih p.1]
      cases h2 : run p.1 es with
      | none => rfl
      | some q => rfl

/-- Claim C10: replenishment does not depend on the configured rate: for every
capacity and every two rates `r1` and `r2`, the limiters
`NewRateLimiter(r1, capacity)` and `NewRateLimiter(r2, capacity)` driven by the
same sequence of events show the same `tokens` value and the same `Allow`
result at every step, fail to complete at the same event if at all, and end
with the same `tokens` and the same list of `Allow` results. -/
theorem rate_independent (capacity r1 r2 : Int) (es : List Event) :
    trace (NewRateLimiter r1 capacity) es = trace (NewRateLimiter r2 capacity) es ∧
    (run (NewRateLimiter r1 capacity) es).map (fun p => (p.1.tokens, p.2))
      = (run (NewRateLimiter r2 capacity) es).map (fun p => (p.1.tokens, p.2)) := by
  have hnew : NewRateLimiter r1 capacity = withRate r1 (NewRateLimiter r2 capacity) := rfl
  refine ⟨?_, ?_⟩
  · rw [hnew, trace_withRate]
  · rw [hnew, run_withRate]
    cases run (NewRateLimiter r2 capacity) es with
    | none => rfl
    | some q => rfl

/-! ## Construction and configuration -/

/-- Claim C11: for all integers `rate` and `capacity`, non-positive ones
included, `NewRateLimiter(rate, capacity)` returns a limiter (it has no
rejecting path) whose `rate` and `capacity` are the given values and whose
`tokens` equals `capacity`; its ticker runs, its stop channel is open and its
goroutine is started. -/
theorem NewRateLimiter_spec (rate capacity : Int) :
    (NewRateLimiter rate capacity).rate = rate ∧
    (NewRateLimiter rate capacity).capacity = capacity ∧
    (NewRateLimiter rate capacity).tokens = capacity ∧
    (NewRateLimiter rate capacity).tickerStopped = false ∧
    (NewRateLimiter rate capacity).stopClosed = false ∧
    (NewRateLimiter rate capacity).goroutine = Goroutine.atSelect ∧
    (0 < capacity → (Allow (NewRateLimiter rate capacity)).2 = true) := by
  refine ⟨rfl, rfl, rfl, rfl, rfl, rfl, fun h => ?_⟩
  rw [Allow_result]
  exact decide_eq_true h

/-- Every event keeps `rate` and `capacity`. -/
theorem run_config (es : List Event) (rl rl2 : RateLimiter) (outs : List Bool)
    (h : run rl es = some (rl2, outs)) : rl2.rate = rl.rate ∧ rl2.capacity = rl.capacity :=
  run_invariant (fun s => s.rate = rl.rate ∧ s.capacity = rl.capacity)
    (fun s e s1 r hP hs => by
      obtain ⟨h1, h2, -⟩ := step_ints hs
      exact ⟨h1.trans hP.1, h2.trans hP.2⟩)
    es rl rl2 outs ⟨rfl, rfl⟩ h

/-- Claim C13: the configuration is immutable after construction: `Allow`, a
replenishment tick, `Stop` and every other event leave `rate` and `capacity` as
they are, so in every limiter reached from `NewRateLimiter(rate, capacity)`
both fields hold the values passed to `NewRateLimiter`. -/
theorem config_immutable (rl : RateLimiter) :
    ((Allow rl).1.rate = rl.rate ∧ (Allow rl).1.capacity = rl.capacity) ∧
    ((replenish rl).rate = rl.rate ∧ (replenish rl).capacity = rl.capacity) ∧
    (∀ rl1, Stop rl = some rl1 → rl1.rate = rl.rate ∧ rl1.capacity = rl.capacity) ∧
    (∀ e rl1 r, step rl e = some (rl1, r) → rl1.rate = rl.rate ∧ rl1.capacity = rl.capacity) ∧
    (∀ (rate capacity : Int) (es : List Event) (outs : List Bool),
      run (NewRateLimiter rate capacity) es = some (rl, outs) →
      rl.rate = rate ∧ rl.capacity = capacity) := by
  refine ⟨?_, ?_, ?_, ?_, ?_⟩
  · rw [Allow_fst]
    exact ⟨rfl, rfl⟩
  · rw [replenish_eq]
    exact ⟨rfl, rfl⟩
  · intro rl1 h
    rw [(Stop_eq_some h).2]
    exact ⟨rfl, rfl⟩
  · intro e rl1 r h
    obtain ⟨h1, h2, -⟩ := step_ints h
    exact ⟨h1, h2⟩
  · intro rate capacity es outs h
    exact run_config es (NewRateLimiter rate capacity) rl outs h

/-! ## `Allow` after `Stop` -/

theorem burstResults_cons (tokens : Int) (n : Nat) :
    burstResults tokens.toNat (n + 1)
      = decide (tokens > 0)
        :: burstResults (if tokens > 0 then tokens - 1 else tokens).toNat n := by
  by_cases h : tokens > 0
  · obtain ⟨t, ht⟩ : ∃ t : Nat, tokens.toNat = t + 1 := ⟨tokens.toNat - 1, by omega⟩
    have h1 : (tokens - 1).toNat = t := by omega
    simp only [h, decide_True, if_true, ht, h1, burstResults, Nat.succ_min_succ,
      Nat.add_sub_add_right, List.replicate_succ, List.cons_append]
  · have h0 : tokens.toNat = 0 := by omega
    simp only [h, decide_False, if_false, h0, burstResults, Nat.min_zero, Nat.sub_zero,
      List.replicate_zero, List.nil_append, List.replicate_succ]

/-- The results of `n` consecutive `Allow` calls: as many grants as there are
tokens, then denials. -/
theorem allowN_burst (n : Nat) (rl : RateLimiter) :
    (allowN n rl).2 = burstResults rl.tokens.toNat n := by
  induction n generalizing rl with
  | zero => simp [allowN, burstResults]
  | succ n ih =>
    rw [allowN, ih, burstResults_cons, Allow_result, Allow_tokens]

/-- An event other than `allow` returns no boolean. -/
theorem step_result_none {rl rl1 : RateLimiter} {e : Event} {r : Option Bool}
    (hne : e ≠ Event.allow) (h : step rl e = some (rl1, r)) : r = none := by
  rcases step_cases h with ⟨he, -⟩ | ⟨-, -, -, h2⟩ | ⟨-, -, h2⟩ | ⟨-, -, -, -, h2⟩ |
    ⟨-, -, -, h2⟩ | ⟨-, -, -, -, h2⟩
  · exact absurd he hne
  all_goals exact h2

/-- With the ticker stopped, no tick in the channel and none held by the
goroutine, the `Allow` calls of any sequence of events return what the same
number of consecutive `Allow` calls returns. -/
theorem run_frozen_results (es : List Event) :
    ∀ (rl rl2 : RateLimiter) (outs : List Bool),
      rl.tickerStopped = true → rl.tickBuffered = false →
      rl.goroutine ≠ Goroutine.holdsTick → run rl es = some (rl2, outs) →
      outs = burstResults rl.tokens.toNat outs.length := by
  induction es with
  | nil =>
    intro rl rl2 outs _ _ _ h
    simp only [run, Option.some.injEq, Prod.mk.injEq] at h
    rw [← h.2]
    simp [burstResults]
  | cons e es ih =>
    intro rl rl2 outs hs hb hg h
    obtain ⟨rl1, r, rs, hstep, hrun, hout⟩ := run_cons h
    obtain ⟨hs1, hb1, hg1, hle, -⟩ := step_frozen hs hb hg hstep
    have hrs := ih rl1 rl2 rs hs1 hb1 hg1 hrun
    subst hout
    by_cases he : e = Event.allow
    · subst he
      simp only [step, Option.some.injEq, Prod.mk.injEq] at hstep
      obtain ⟨h1, h2⟩ := hstep
      subst h1 h2
      rw [Allow_tokens] at hrs
      simp only [Option.toList, List.singleton_append, List.length_cons]
      rw [burstResults_cons, Allow_result, ← hrs]
    · have hr := step_result_none he hstep
      have hge := step_idle_mono he hstep
      have heq : rl1.tokens = rl.tokens := by omega
      subst hr
      rw [heq] at hrs
      simpa using hrs

/-- Claim C12: the code at the failing input.  `NewRateLimiter(2, 3)` grants
one `Allow`; a ticker interval ends and the goroutine receives the tick;
`Stop` is called with `tokens = 2` and returns; the goroutine then runs the
critical section.  Of the `Allow` calls after `Stop`, three return `true`,
where the claim expects exactly two. -/
theorem stop_then_three_grants :
    run (NewRateLimiter 2 3) [.allow, .fire, .recv] = some (twoLeftHoldsTick, [true]) ∧
    twoLeftHoldsTick.tokens = 2 ∧
    (Stop twoLeftHoldsTick).isSome = true ∧
    ((Stop twoLeftHoldsTick).bind fun rl =>
        (run rl [.tick, .allow, .allow, .allow, .allow]).map Prod.snd)
      = some [true, true, true, false] ∧
    ((Stop twoLeftHoldsTick).bind fun rl =>
        (run rl [.allow, .allow, .tick, .allow, .allow]).map Prod.snd)
      = some [true, true, true, false] := by
  decide

/-- What holds of `Allow` after `Stop`.  `Stop` leaves `tokens` unchanged, and
`Allow` on the stopped limiter returns what it would have returned before
`Stop`: `true` exactly when `tokens > 0`, taking one token.  So after `Stop`
with `t` tokens, of `n` consecutive `Allow` calls the first `t` return `true`
and the others `false`; and when the goroutine holds no received tick as `Stop`
is called, the same is true of all later `Allow` calls whatever other events
come in between. -/
theorem allow_after_stop (rl stopped : RateLimiter) (hstop : Stop rl = some stopped) :
    stopped.tokens = rl.tokens ∧
    (Allow stopped).2 = (Allow rl).2 ∧
    ((Allow stopped).2 = true ↔ rl.tokens > 0) ∧
    ((Allow stopped).2 = true → (Allow stopped).1.tokens = rl.tokens - 1) ∧
    (∀ n, (allowN n stopped).2 = burstResults rl.tokens.toNat n) ∧
    (rl.goroutine ≠ Goroutine.holdsTick →
      ∀ (es : List Event) (rl2 : RateLimiter) (outs : List Bool),
        run stopped es = some (rl2, outs) →
        outs = burstResults rl.tokens.toNat outs.length) := by
  obtain ⟨-, hq⟩ := Stop_eq_some hstop
  subst hq
  refine ⟨rfl, ?_, ?_, ?_, ?_, ?_⟩
  · rw [Allow_result, Allow_result]
  · rw [Allow_result]
    exact decide_eq_true_iff
  · intro h
    rw [Allow_result] at h
    have hpos : rl.tokens > 0 := of_decide_eq_true h
    rw [Allow_tokens]
    show (if rl.tokens > 0 then rl.tokens - 1 else rl.tokens) = rl.tokens - 1
    rw [if_pos hpos]
  · intro n
    rw [allowN_burst]
  · intro hg es rl2 outs h
    exact run_frozen_results es
      { rl with tickerStopped := true, tickBuffered := false, stopClosed := true }
      rl2 outs rfl rfl hg h

/-- `NewRateLimiter(2, 3)` stopped after one grant, before any tick: two more
grants, then denials, with ticker intervals and the return of the goroutine in
between. -/
theorem allow_after_stop_example :
    run (NewRateLimiter 2 3) [.allow] = some (twoLeftIdle, [true]) ∧
    Stop twoLeftIdle = some twoLeftStopped ∧
    (run twoLeftStopped [.fire, .allow, .exit, .allow, .fire, .allow, .allow]).map Prod.snd
      = some [true, true, false, false] ∧
    burstResults twoLeftIdle.tokens.toNat 4 = [true, true, false, false] ∧
    twoLeftStopped.tokens = twoLeftIdle.tokens ∧
    (∀ n, (allowN n twoLeftStopped).2 = burstResults twoLeftIdle.tokens.toNat n) ∧
    [true, true, false, false]
      = burstResults twoLeftIdle.tokens.toNat [true, true, false, false].length :=
  ⟨by decide, by decide, by decide, by decide,
   (allow_after_stop twoLeftIdle twoLeftStopped (by decide)).1,
   (allow_after_stop twoLeftIdle twoLeftStopped (by decide)).2.2.2.2.1,
   (allow_after_stop twoLeftIdle twoLeftStopped (by decide)).2.2.2.2.2 (by decide)
     [.fire, .allow, .exit, .allow, .fire, .allow, .allow]
     { twoLeftStopped with tokens := 0, goroutine := Goroutine.returned }
     [true, true, false, false] (by decide)⟩

/-! ## Accounting of grants and ticks -/

/-- An `Allow` call that returns `true` found `tokens > 0`. -/
theorem step_grant {rl rl1 : RateLimiter} {e : Event}
    (h : step rl e = some (rl1, some true)) : 0 < rl.tokens := by
  rcases step_cases h with ⟨-, -, h2⟩ | ⟨-, -, -, h2⟩ | ⟨-, -, h2⟩ | ⟨-, -, -, -, h2⟩ |
    ⟨-, -, -, h2⟩ | ⟨-, -, -, -, h2⟩
  · simp only [Option.some.injEq] at h2
    rw [Allow_result] at h2
    exact of_decide_eq_true h2.symm
  all_goals simp at h2

/-- One event changes `tokens` by minus one for a grant and plus one for a
replenishment tick that found `tokens < capacity`. -/
theorem step_account {rl rl1 : RateLimiter} {e : Event} {r : Option Bool}
    (h : step rl e = some (rl1, r)) :
    rl1.tokens = rl.tokens - (r.toList.count true : Nat)
      + ((if e = Event.tick ∧ rl.tokens < rl.capacity then 1 else 0 : Nat) : Int) := by
  rcases step_cases h with ⟨he, h1, h2⟩ | ⟨he, -, h1, h2⟩ | ⟨he, h1, h2⟩ | ⟨he, -, -, h1, h2⟩ |
    ⟨he, -, h1, h2⟩ | ⟨he, -, -, h1, h2⟩
  · subst he h1 h2
    rw [Allow_tokens, Allow_result]
    by_cases hpos : rl.tokens > 0
    · simp [hpos]
    · simp [hpos]
  · subst he h1 h2
    simp
  · subst he h1 h2
    have hf : (fire rl).tokens = rl.tokens := by
      unfold fire
      split <;> rfl
    simp [hf]
  · subst he h1 h2
    simp
  · subst he h1 h2
    rw [replenish_tokens]
    show (if rl.tokens < rl.capacity then rl.tokens + 1 else rl.tokens) = _
    by_cases hlt : rl.tokens < rl.capacity
    · simp [hlt]
    · simp [hlt]
  · subst he h1 h2
    simp

/-- After a sequence of events, `tokens` is its first value minus the number of
grants plus the number of ticks that found `tokens < capacity`, and these are
not more than the ticks of the sequence. -/
theorem run_account (es : List Event) :
    ∀ (rl rl2 : RateLimiter) (outs : List Bool), run rl es = some (rl2, outs) →
      rl2.tokens = rl.tokens - (outs.count true : Nat) + (effectiveTicks rl es : Nat) ∧
      effectiveTicks rl es ≤ es.count Event.tick := by
  induction es with
  | nil =>
    intro rl rl2 outs h
    simp only [run, Option.some.injEq, Prod.mk.injEq] at h
    obtain ⟨h1, h2⟩ := h
    subst h1 h2
    simp [effectiveTicks]
  | cons e es ih =>
    intro rl rl2 outs h
    obtain ⟨rl1, r, rs, hstep, hrun, hout⟩ := run_cons h
    obtain ⟨ih1, ih2⟩ := ih rl1 rl2 rs hrun
    have hacc := step_account hstep
    subst hout
    have heff : effectiveTicks rl (e :: es)
        = (if e = Event.tick ∧ rl.tokens < rl.capacity then 1 else 0)
          + effectiveTicks rl1 es := by
      simp only [effectiveTicks, hstep]
    rw [heff, List.count_append, List.count_cons]
    refine ⟨?_, ?_⟩
    · push_cast at hacc ⊢
      omega
    · by_cases he : e = Event.tick
      · by_cases hlt : rl.tokens < rl.capacity
        · simp [he, hlt]
          omega
        · simp [he, hlt]
          omega
      · simp [he]
        omega

/-- Claim C15: for every capacity `C ≥ 0` and every sequence of events from a
limiter fresh from `NewRateLimiter(rate, C)`, the number of `Allow` calls that
return `true` is at most `C` plus the number of replenishment ticks of the
sequence, and the final `tokens` is `C` minus the number of grants plus the
number of ticks that found `tokens < capacity`. -/
theorem rate_limit_bound (rate C : Int) (hC : 0 ≤ C) (es : List Event) (rl : RateLimiter)
    (outs : List Bool) (h : run (NewRateLimiter rate C) es = some (rl, outs)) :
    ((outs.count true : Nat) : Int) ≤ C + (es.count Event.tick : Nat) ∧
    rl.tokens = C - (outs.count true : Nat) + (effectiveTicks (NewRateLimiter rate C) es : Nat) := by
  obtain ⟨h1, h2⟩ := run_account es (NewRateLimiter rate C) rl outs h
  have hb := run_bounds (NewRateLimiter rate C) (Int.le_refl _) h
  have ht : (NewRateLimiter rate C).tokens = C := rfl
  rw [ht] at h1 hb
  have h0 := hb.2.2 hC
  refine ⟨?_, h1⟩
  omega

/-- A run of `NewRateLimiter(1, 2)` with four ticks, of which the last finds
the bucket full: three grants, `tokens = 2 - 3 + 3`. -/
theorem rate_limit_bound_witness :
    (0 : Int) ≤ 2 ∧
    run (NewRateLimiter 1 2)
        [.allow, .allow, .allow, .fire, .recv, .tick, .allow, .fire, .recv, .tick,
         .fire, .recv, .tick, .fire, .recv, .tick]
      = some ({ NewRateLimiter 1 2 with tokens := 2 }, [true, true, false, true]) ∧
    effectiveTicks (NewRateLimiter 1 2)
        [.allow, .allow, .allow, .fire, .recv, .tick, .allow, .fire, .recv, .tick,
         .fire, .recv, .tick, .fire, .recv, .tick] = 3 ∧
    (([true, true, false, true].count true : Nat) : Int)
      ≤ 2 + (([.allow, .allow, .allow, .fire, .recv, .tick, .allow, .fire, .recv, .tick,
               .fire, .recv, .tick, .fire, .recv, .tick] : List Event).count Event.tick : Nat) ∧
    ({ NewRateLimiter 1 2 with tokens := 2 } : RateLimiter).tokens
      = 2 - ([true, true, false, true].count true : Nat)
        + (effectiveTicks (NewRateLimiter 1 2)
            [.allow, .allow, .allow, .fire, .recv, .tick, .allow, .fire, .recv, .tick,
             .fire, .recv, .tick, .fire, .recv, .tick] : Nat) :=
  ⟨by decide, by decide, by decide,
   rate_limit_bound 1 2 (by decide)
     [.allow, .allow, .allow, .fire, .recv, .tick, .allow, .fire, .recv, .tick,
      .fire, .recv, .tick, .fire, .recv, .tick]
     { NewRateLimiter 1 2 with tokens := 2 } [true, true, false, true] (by decide)⟩

/-! ## Refilling -/

/-- After `n` replenishment ticks, `tokens` is `min (tokens + n) capacity`. -/
theorem replenishN_tokens (n : Nat) (rl : RateLimiter) (h : rl.tokens ≤ rl.capacity) :
    (replenishN n rl).tokens = min (rl.tokens + n) rl.capacity := by
  induction n generalizing rl with
  | zero =>
    show rl.tokens = min (rl.tokens + ((0 : Nat) : Int)) rl.capacity
    simp only [Nat.cast_zero, Int.add_zero]
    omega
  | succ n ih =>
    have ht := replenish_tokens rl
    have hc : (replenish rl).capacity = rl.capacity := by rw [replenish_eq]
    have hle : (replenish rl).tokens ≤ (replenish rl).capacity := by
      rw [ht, hc]
      split <;> omega
    rw [replenishN, ih (replenish rl) hle, ht, hc]
    push_cast
    split <;> omega

/-- An event that returns no boolean contributes nothing to the results of a
sequence. -/
theorem run_cons_silent {rl rl1 : RateLimiter} {e : Event} (es : List Event)
    (h : step rl e = some (rl1, none)) : run rl (e :: es) = run rl1 es := by
  simp only [run, h]
  cases run rl1 es with
  | none => rfl
  | some q => simp

/-- From a limiter whose ticker runs and whose goroutine is at its `select`,
`n` ticker intervals, each followed by the receive of the tick and the critical
section, leave the `tokens` of `n` replenishment ticks. -/
theorem run_tickRounds (n : Nat) :
    ∀ rl rl0 : RateLimiter, rl0.tokens = rl.tokens → rl0.capacity = rl.capacity →
      rl0.goroutine = Goroutine.atSelect → rl0.tickerStopped = false →
      (run rl0 (tickRounds n)).map (fun p => (p.1.tokens, p.2))
        = some ((replenishN n rl).tokens, []) := by
  induction n with
  | zero =>
    intro rl rl0 ht _ _ _
    simp [tickRounds, run, replenishN, ht]
  | succ n ih =>
    intro rl rl0 ht hc hg hs
    have h1 : step rl0 Event.fire = some ({ rl0 with tickBuffered := true }, none) := by
      simp [step, fire, hs]
    have h2 : step { rl0 with tickBuffered := true } Event.recv
        = some ({ rl0 with tickBuffered := false, goroutine := Goroutine.holdsTick }, none) := by
      simp [step, startReplenishment_recv, hg]
    have h3 : step { rl0 with tickBuffered := false, goroutine := Goroutine.holdsTick }
        Event.tick
        = some (replenish { rl0 with tickBuffered := false, goroutine := Goroutine.atSelect },
            none) := by
      simp [step, startReplenishment_tick]
    rw [tickRounds, run_cons_silent _ h1, run_cons_silent _ h2, run_cons_silent _ h3,
      replenishN]
    apply ih (replenish rl)
    · rw [replenish_tokens, replenish_tokens]
      show (if rl0.tokens < rl0.capacity then rl0.tokens + 1 else rl0.tokens) = _
      rw [ht, hc]
    · rw [replenish_eq, replenish_eq]
      exact hc
    · rw [replenish_eq]
    · rw [replenish_eq]
      exact hs

/-- Claim C16: for every limiter with `tokens = t ≤ capacity` and every `n`,
after `n` consecutive replenishment ticks with no `Allow` call in between,
`tokens` is `min (t + n) capacity`; so a limiter exhausted to 0 is full again
after `capacity` ticks and not before.  The `n` ticks are also the run of `n`
ticker intervals handled by the goroutine. -/
theorem refill_after_ticks (rl : RateLimiter) (n : Nat) (hle : rl.tokens ≤ rl.capacity) :
    (replenishN n rl).tokens = min (rl.tokens + n) rl.capacity ∧
    (rl.tokens = 0 → ((replenishN n rl).tokens = rl.capacity ↔ rl.capacity ≤ n)) ∧
    (rl.goroutine = Goroutine.atSelect → rl.tickerStopped = false →
      (run rl (tickRounds n)).map (fun p => (p.1.tokens, p.2))
        = some (min (rl.tokens + n) rl.capacity, [])) := by
  have h := replenishN_tokens n rl hle
  refine ⟨h, fun h0 => ?_, fun hg hs => ?_⟩
  · rw [h, h0]
    constructor <;> intro hh <;> omega
  · rw [run_tickRounds n rl rl rfl rfl hg hs, h]

/-- The exhausted limiter of capacity 2: one tick gives 1 token, two ticks and
more give 2. -/
theorem refill_after_ticks_witness :
    exhaustedIdle.tokens ≤ exhaustedIdle.capacity ∧
    (replenishN 1 exhaustedIdle).tokens = 1 ∧
    (replenishN 2 exhaustedIdle).tokens = 2 ∧
    (replenishN 3 exhaustedIdle).tokens = min (exhaustedIdle.tokens + (3 : Nat))
      exhaustedIdle.capacity ∧
    (exhaustedIdle.tokens = 0 →
      ((replenishN 3 exhaustedIdle).tokens = exhaustedIdle.capacity
        ↔ exhaustedIdle.capacity ≤ (3 : Nat))) ∧
    (exhaustedIdle.goroutine = Goroutine.atSelect → exhaustedIdle.tickerStopped = false →
      (run exhaustedIdle (tickRounds 3)).map (fun p => (p.1.tokens, p.2))
        = some (min (exhaustedIdle.tokens + (3 : Nat)) exhaustedIdle.capacity, [])) :=
  ⟨by decide, by decide, by decide, refill_after_ticks exhaustedIdle 3 (by decide)⟩

/-! ## Non-positive capacity -/

/-- From a limiter with `tokens = capacity ≤ 0`, no sequence of events changes
`tokens`, and every `Allow` of the sequence returns `false`. -/
theorem run_stuck (es : List Event) :
    ∀ (rl rl2 : RateLimiter) (outs : List Bool),
      rl.tokens = rl.capacity → rl.capacity ≤ 0 → run rl es = some (rl2, outs) →
      rl2.tokens = rl.tokens ∧ ∀ b ∈ outs, b = false := by
  induction es with
  | nil =>
    intro rl rl2 outs _ _ h
    simp only [run, Option.some.injEq, Prod.mk.injEq] at h
    obtain ⟨h1, h2⟩ := h
    subst h1 h2
    exact ⟨rfl, by simp⟩
  | cons e es ih =>
    intro rl rl2 outs heq hcap h
    obtain ⟨rl1, r, rs, hstep, hrun, hout⟩ := run_cons h
    obtain ⟨-, hc, ht⟩ := step_ints hstep
    have ht1 : rl1.tokens = rl.tokens := by omega
    obtain ⟨h2, hfalse⟩ := ih rl1 rl2 rs (by omega) (by omega) hrun
    refine ⟨by omega, fun b hmem => ?_⟩
    subst hout
    rcases List.mem_append.mp hmem with hb1 | hb2
    · cases r with
      | none => simp at hb1
      | some v =>
        simp only [Option.toList, List.mem_singleton] at hb1
        subst hb1
        cases b with
        | false => rfl
        | true => exact absurd (step_grant hstep) (by omega)
    · exact hfalse b hb2

/-- Claim C17: for every limiter created with `capacity ≤ 0` (any rate),
`tokens` equals `capacity` in every limiter reached and every `Allow` call
returns `false`, whatever the sequence of events; for a negative capacity
`0 ≤ tokens` is false in every limiter reached. -/
theorem nonpositive_capacity (rate capacity : Int) (hcap : capacity ≤ 0) (es : List Event)
    (rl : RateLimiter) (outs : List Bool)
    (h : run (NewRateLimiter rate capacity) es = some (rl, outs)) :
    rl.tokens = capacity ∧ (∀ b ∈ outs, b = false) ∧ (capacity < 0 → ¬ 0 ≤ rl.tokens) := by
  obtain ⟨h1, h2⟩ := run_stuck es (NewRateLimiter rate capacity) rl outs rfl hcap h
  have ht : (NewRateLimiter rate capacity).tokens = capacity := rfl
  rw [ht] at h1
  exact ⟨h1, h2, fun hneg => by omega⟩

/-- The run of `NewRateLimiter(5, -1)` through `Allow` calls and a tick:
`tokens` stays `-1` and both calls are denied. -/
theorem nonpositive_capacity_witness :
    (-1 : Int) ≤ 0 ∧
    run (NewRateLimiter 5 (-1)) [.allow, .fire, .recv, .tick, .allow]
      = some (NewRateLimiter 5 (-1), [false, false]) ∧
    (NewRateLimiter 5 (-1)).tokens = -1 ∧ (∀ b ∈ [false, false], b = false) ∧
    ((-1 : Int) < 0 → ¬ 0 ≤ (NewRateLimiter 5 (-1)).tokens) :=
  ⟨by decide, by decide,
   nonpositive_capacity 5 (-1) (by decide) [.allow, .fire, .recv, .tick, .allow]
     (NewRateLimiter 5 (-1)) [false, false] (by decide)⟩

/-! ## Concurrent executions -/

/-- The `if` statement run on a test that read the present `tokens` is the
whole operation run alone. -/
theorem ifBody_fresh (rl : RateLimiter) (op : Op) : ifBody rl rl.tokens op = applyOp rl op := by
  cases op
  · simp only [ifBody, applyOp, Allow]
  · simp only [ifBody, applyOp, replenish]
    by_cases h : rl.tokens < rl.capacity <;> simp [h]

theorem serialRun_append (rl : RateLimiter) (ops : List Op) (op : Op) :
    serialRun rl (ops ++ [op])
      = ((applyOp (serialRun rl ops).1 op).1,
         (serialRun rl ops).2 ++ [(applyOp (serialRun rl ops).1 op).2]) := by
  induction ops generalizing rl with
  | nil => rfl
  | cons o ops ih =>
    rw [List.cons_append, serialRun, ih, serialRun]
    rfl

/-- The thread at an index after the thread at index `i` has been replaced. -/
theorem threads_set {l : List Thread} {i : Nat} {t a : Thread} (h : l[i]? = some t)
    (j : Nat) : (l.set i a)[j]? = if i = j then some a else l[j]? := by
  have hlt : i < l.length := by
    obtain ⟨hlt, -⟩ := List.getElem?_eq_some_iff.mp h
    exact hlt
  rw [List.getElem?_set, if_pos hlt]

/-- The five outcomes of `threadStep`: no move, `Lock`, the test, the `if`
body, `Unlock`. -/
theorem threadStep_cases (c : Shared) (i : Nat) :
    threadStep c i = (c, none) ∨
    ∃ t op rest, c.threads[i]? = some t ∧ t.prog = op :: rest ∧
      ((t.pc = Pc.idle ∧ c.owner = none ∧
          threadStep c i
            = ({ c with
                  owner := some i
                  threads := c.threads.set i { t with pc := Pc.locked } }, none)) ∨
        (t.pc = Pc.locked ∧
          threadStep c i
            = ({ c with threads := c.threads.set i { t with pc := Pc.tested c.rl.tokens } },
                none)) ∨
        (∃ seen, t.pc = Pc.tested seen ∧
          threadStep c i
            = ({ c with
                  rl := (ifBody c.rl seen op).1
                  threads :=
                    c.threads.set i { t with pc := Pc.returning (ifBody c.rl seen op).2 } },
                some { thread := i, op := op, ret := (ifBody c.rl seen op).2 })) ∨
        (∃ r, t.pc = Pc.returning r ∧
          threadStep c i
            = ({ c with
                  owner := none
                  threads :=
                    c.threads.set i { prog := rest, pc := Pc.idle, rets := t.rets ++ [r] } },
                none))) := by
  cases ht : c.threads[i]? with
  | none => left; simp [threadStep, ht]
  | some t =>
    obtain ⟨prog, pc, rets⟩ := t
    cases prog with
    | nil => left; simp [threadStep, ht]
    | cons op rest =>
      cases pc with
      | idle =>
        by_cases ho : c.owner = none
        · right
          exact ⟨_, op, rest, rfl, rfl, Or.inl ⟨rfl, ho, by simp [threadStep, ht, ho]⟩⟩
        · left
          simp [threadStep, ht, ho]
      | locked =>
        right
        exact ⟨_, op, rest, rfl, rfl, Or.inr (Or.inl ⟨rfl, by simp [threadStep, ht]⟩)⟩
      | tested seen =>
        right
        exact ⟨_, op, rest, rfl, rfl,
          Or.inr (Or.inr (Or.inl ⟨seen, rfl, by simp [threadStep, ht]⟩))⟩
      | returning r =>
        right
        exact ⟨_, op, rest, rfl, rfl,
          Or.inr (Or.inr (Or.inr ⟨r, rfl, by simp [threadStep, ht]⟩))⟩

theorem commitsOf_append (i : Nat) (log : List Commit) (entry : Option Commit) :
    commitsOf i (log ++ entry.toList) = commitsOf i log ++ commitsOf i entry.toList := by
  simp [commitsOf]

theorem commitsOf_other {i j : Nat} {entry : Option Commit}
    (hentry : ∀ e, entry = some e → e.thread = i) (hne : j ≠ i) :
    commitsOf j entry.toList = [] := by
  cases entry with
  | none => rfl
  | some e =>
    have he : e.thread = i := hentry e rfl
    have hd : decide (e.thread = j) = false := by
      apply decide_eq_false
      rw [he]
      exact fun hij => hne hij.symm
    simp [commitsOf, List.filter_cons, hd]

/-- Mutual exclusion: while a thread is past `Lock`, every other thread is
before `Lock`. -/
theorem linearised_others_idle {rl0 : RateLimiter} {progs : List (List Op)} {c : Shared}
    {log : List Commit} (h : Linearised rl0 progs c log) {i : Nat} {t : Thread}
    (ht : c.threads[i]? = some t) (hpc : t.pc ≠ Pc.idle) {j : Nat} {tj : Thread}
    (hne : j ≠ i) (hj : c.threads[j]? = some tj) : tj.pc = Pc.idle := by
  have hi : c.owner = some i := (h.mutex i t ht).mpr hpc
  by_contra hcon
  have hjo : c.owner = some j := (h.mutex j tj hj).mpr hcon
  rw [hi] at hjo
  exact hne (Option.some.inj hjo).symm

/-- The invariant after thread `i` has been replaced, given what the new
thread, struct, mutex holder and record satisfy. -/
theorem linearised_update {rl0 : RateLimiter} {progs : List (List Op)} {c : Shared}
    {log : List Commit} (h : Linearised rl0 progs c log) {i : Nat} {t : Thread}
    (ht : c.threads[i]? = some t) (t1 : Thread) (rl1 : RateLimiter) (owner1 : Option Nat)
    (entry : Option Commit)
    (hser : serialRun rl0 ((log ++ entry.toList).map Commit.op)
      = (rl1, (log ++ entry.toList).map Commit.ret))
    (hmut : owner1 = some i ↔ t1.pc ≠ Pc.idle)
    (hmutj : ∀ (j : Nat) (tj : Thread), j ≠ i → c.threads[j]? = some tj →
      (owner1 = some j ↔ tj.pc ≠ Pc.idle))
    (hfresh : ∀ seen, t1.pc = Pc.tested seen → seen = rl1.tokens)
    (hfreshj : ∀ (j : Nat) (tj : Thread) (seen : Int), j ≠ i → c.threads[j]? = some tj →
      tj.pc = Pc.tested seen → seen = rl1.tokens)
    (hentry : ∀ e, entry = some e → e.thread = i)
    (hord : progs[i]? = some ((commitsOf i (log ++ entry.toList)).map Commit.op ++ remaining t1) ∧
      (commitsOf i (log ++ entry.toList)).map Commit.ret = t1.rets ++ pending t1) :
    Linearised rl0 progs { rl := rl1, owner := owner1, threads := c.threads.set i t1 }
      (log ++ entry.toList) := by
  refine ⟨hser, ?_, ?_, ?_⟩
  · intro j tj hj
    simp only [threads_set ht] at hj
    by_cases hij : i = j
    · subst hij
      simp only [if_true, Option.some.injEq] at hj
      subst hj
      exact hmut
    · simp only [hij, if_false] at hj
      exact hmutj j tj (fun hji => hij hji.symm) hj
  · intro j tj seen hj hpc
    simp only [threads_set ht] at hj
    by_cases hij : i = j
    · subst hij
      simp only [if_true, Option.some.injEq] at hj
      subst hj
      exact hfresh seen hpc
    · simp only [hij, if_false] at hj
      exact hfreshj j tj seen (fun hji => hij hji.symm) hj hpc
  · intro j tj hj
    simp only [threads_set ht] at hj
    by_cases hij : i = j
    · subst hij
      simp only [if_true, Option.some.injEq] at hj
      subst hj
      exact hord
    · simp only [hij, if_false] at hj
      have hne : j ≠ i := fun hji => hij hji.symm
      rw [commitsOf_append, commitsOf_other hentry hne, List.append_nil]
      exact h.order j tj hj

/-- Every statement of every thread keeps the invariant. -/
theorem linearised_threadStep {rl0 : RateLimiter} {progs : List (List Op)} {c : Shared}
    {log : List Commit} (h : Linearised rl0 progs c log) (i : Nat) :
    Linearised rl0 progs (threadStep c i).1 (log ++ (threadStep c i).2.toList) := by
  rcases threadStep_cases c i with hno | ⟨t, op, rest, ht, hprog, hcase⟩
  · rw [hno]
    simpa using h
  · have hord := h.order i t ht
    rcases hcase with ⟨hpc, ho, hs⟩ | ⟨hpc, hs⟩ | ⟨seen, hpc, hs⟩ | ⟨r, hpc, hs⟩
    · -- `rl.mu.Lock()`
      rw [hs]
      refine linearised_update h ht { t with pc := Pc.locked } c.rl (some i) none ?_ ?_ ?_ ?_ ?_ ?_ ?_
      · simpa using h.serial
      · simp
      · intro j tj hne hj
        have hm := h.mutex j tj hj
        rw [ho] at hm
        constructor
        · intro hij
          exact absurd (Option.some.inj hij).symm hne
        · intro hpcj
          exact absurd (hm.mpr hpcj) (by simp)
      · intro seen hseen
        simp at hseen
      · intro j tj seen _ hj hseen
        exact h.fresh j tj seen hj hseen
      · intro e he
        simp at he
      · simpa [remaining, pending, hpc] using hord
    · -- the test of the `if`
      have hown : c.owner = some i := (h.mutex i t ht).mpr (by rw [hpc]; simp)
      rw [hs]
      refine linearised_update h ht { t with pc := Pc.tested c.rl.tokens } c.rl c.owner none
        ?_ ?_ ?_ ?_ ?_ ?_ ?_
      · simpa using h.serial
      · simp [hown]
      · intro j tj _ hj
        exact h.mutex j tj hj
      · intro seen hseen
        simp only [Pc.tested.injEq] at hseen
        exact hseen.symm
      · intro j tj seen _ hj hseen
        exact h.fresh j tj seen hj hseen
      · intro e he
        simp at he
      · simpa [remaining, pending, hpc] using hord
    · -- the body of the `if`
      have hown : c.owner = some i := (h.mutex i t ht).mpr (by rw [hpc]; simp)
      have hseen : seen = c.rl.tokens := h.fresh i t seen ht hpc
      have hbody : ifBody c.rl seen op = applyOp c.rl op := by rw [hseen, ifBody_fresh]
      rw [hs, hbody]
      refine linearised_update h ht { t with pc := Pc.returning (applyOp c.rl op).2 } (applyOp c.rl op).1
        c.owner (some { thread := i, op := op, ret := (applyOp c.rl op).2 }) ?_ ?_ ?_ ?_ ?_ ?_ ?_
      · simp only [Option.toList, List.map_append, List.map_cons, List.map_nil]
        rw [serialRun_append, h.serial]
      · simp [hown]
      · intro j tj _ hj
        exact h.mutex j tj hj
      · intro s hs1
        simp at hs1
      · intro j tj s hne hj hs1
        have hidle := linearised_others_idle h ht (by rw [hpc]; simp) hne hj
        rw [hidle] at hs1
        simp at hs1
      · intro e he
        simp only [Option.some.injEq] at he
        rw [← he]
      · have hc : commitsOf i
            (log ++ (some { thread := i, op := op, ret := (applyOp c.rl op).2 } : Option Commit).toList)
            = commitsOf i log ++ [{ thread := i, op := op, ret := (applyOp c.rl op).2 }] := by
          simp [commitsOf, List.filter_cons]
        rw [hc]
        simp only [remaining, pending, hpc, hprog, List.append_nil] at hord
        simp only [remaining, pending, hprog, List.tail_cons, List.map_append, List.map_cons,
          List.map_nil, List.append_assoc, List.singleton_append]
        exact ⟨hord.1, by rw [hord.2]⟩
    · -- `rl.mu.Unlock()`
      rw [hs]
      refine linearised_update h ht { prog := rest, pc := Pc.idle, rets := t.rets ++ [r] } c.rl none none
        ?_ ?_ ?_ ?_ ?_ ?_ ?_
      · simpa using h.serial
      · simp
      · intro j tj hne hj
        have hidle := linearised_others_idle h ht (by rw [hpc]; simp) hne hj
        simp [hidle]
      · intro seen hseen
        simp at hseen
      · intro j tj seen _ hj hseen
        exact h.fresh j tj seen hj hseen
      · intro e he
        simp at he
      · simp only [remaining, pending, hpc, hprog, List.tail_cons] at hord
        simpa [remaining, pending] using hord

/-- Every concurrent execution keeps the invariant. -/
theorem linearised_concurrentRun {rl0 : RateLimiter} {progs : List (List Op)}
    (sched : List Nat) :
    ∀ (c : Shared) (log : List Commit), Linearised rl0 progs c log →
      Linearised rl0 progs (concurrentRun c sched).1 (log ++ (concurrentRun c sched).2) := by
  induction sched with
  | nil =>
    intro c log h
    simpa [concurrentRun] using h
  | cons i sched ih =>
    intro c log h
    have h1 := ih (threadStep c i).1 (log ++ (threadStep c i).2.toList)
      (linearised_threadStep h i)
    simpa [concurrentRun, List.append_assoc] using h1

/-- The invariant holds at the start. -/
theorem linearised_start (rl : RateLimiter) (progs : List (List Op)) :
    Linearised rl progs (start rl progs) [] := by
  have hthread : ∀ (i : Nat) (t : Thread), (start rl progs).threads[i]? = some t →
      ∃ p, progs[i]? = some p ∧ t = { prog := p, pc := Pc.idle, rets := [] } := by
    intro i t ht
    simp only [start, List.getElem?_map] at ht
    cases hp : progs[i]? with
    | none => simp [hp] at ht
    | some p =>
      simp only [hp, Option.map_some', Option.some.injEq] at ht
      exact ⟨p, rfl, ht.symm⟩
  refine ⟨rfl, ?_, ?_, ?_⟩
  · intro i t ht
    obtain ⟨p, -, rfl⟩ := hthread i t ht
    simp [start]
  · intro i t seen ht hpc
    obtain ⟨p, -, rfl⟩ := hthread i t ht
    simp at hpc
  · intro i t ht
    obtain ⟨p, hp, rfl⟩ := hthread i t ht
    simp [commitsOf, remaining, pending, hp]

/-- Serial `Allow` calls alone: as many grants as there are tokens, then
denials. -/
theorem serialRun_allow_only (ops : List Op) :
    ∀ rl : RateLimiter, (∀ op ∈ ops, op = Op.allow) →
      (serialRun rl ops).2 = burstResults rl.tokens.toNat ops.length := by
  induction ops with
  | nil =>
    intro rl _
    simp [serialRun, burstResults]
  | cons o ops ih =>
    intro rl hall
    have ho : o = Op.allow := hall o (List.mem_cons_self _ _)
    subst ho
    have ih1 := ih (Allow rl).1 (fun op hop => hall op (List.mem_cons_of_mem _ hop))
    simp only [serialRun, applyOp, List.length_cons]
    rw [ih1, burstResults_cons, Allow_result, Allow_tokens]

/-- The number of `true` in `burstResults t n` is at most `t`. -/
theorem burstResults_count (t n : Nat) : (burstResults t n).count true ≤ t := by
  simp only [burstResults, List.count_append, List.count_replicate_self]
  have h0 : (List.replicate (n - t) false).count true = 0 := by
    rw [List.count_eq_zero]
    intro hmem
    exact absurd (List.eq_of_mem_replicate hmem) (by decide)
  omega

/-- Token accounting of a serial execution whose results are the recorded
ones. -/
theorem serialRun_account (log : List Commit) :
    ∀ rl rl1 : RateLimiter,
      serialRun rl (log.map Commit.op) = (rl1, log.map Commit.ret) →
      rl1.tokens = rl.tokens - (grantsIn log : Nat) + (refillsIn log : Nat) := by
  induction log with
  | nil =>
    intro rl rl1 h
    simp only [List.map_nil, serialRun, Prod.mk.injEq] at h
    simp [grantsIn, refillsIn, h.1]
  | cons e log ih =>
    intro rl rl1 h
    simp only [List.map_cons, serialRun, Prod.mk.injEq, List.cons.injEq] at h
    obtain ⟨h1, hret, h2⟩ := h
    have ih1 := ih (applyOp rl e.op).1 rl1 (Prod.ext h1 h2)
    rw [ih1]
    obtain ⟨th, op, ret⟩ := e
    simp only at hret
    subst hret
    cases op
    · simp only [applyOp, Allow_tokens, Allow_result, grantsIn, refillsIn, List.filter_cons]
      by_cases hpos : rl.tokens > 0
      · simp [hpos]
        omega
      · simp [hpos]
    · simp only [applyOp, replenish_tokens, grantsIn, refillsIn, List.filter_cons]
      by_cases hlt : rl.tokens < rl.capacity
      · simp [hlt]
        omega
      · simp [hlt]

/-- The body of the `if` run on a test that no longer holds would take a token
that is not there: this is what the mutex excludes. -/
theorem ifBody_stale :
    ifBody { exhaustedIdle with tokens := 0 } 1 Op.allow
      = ({ exhaustedIdle with tokens := -1 }, true) := by
  decide

/-- Claim C14: `Allow` is atomic with respect to concurrent `Allow` calls and
the replenishment goroutine.  Whatever the schedule of the statements of the
threads, the execution is equivalent to the serial execution of the whole
operations in the order in which they passed their `if`: that serial execution
gives the same struct and the same result to every operation; it holds every
operation of every thread once, in the order of the thread's program; at most
one thread is past `Lock` at a time, and the test it made read the present
`tokens`.  So no decrement or increment is lost or applied twice (`tokens` is
its first value minus the grants plus the ticks that added a token), and when
only `Allow` calls run, exactly the first `tokens` of them are granted: no two
callers take the same token. -/
theorem allow_atomic (rl : RateLimiter) (progs : List (List Op)) (sched : List Nat)
    (c : Shared) (log : List Commit)
    (hrun : concurrentRun (start rl progs) sched = (c, log)) :
    serialRun rl (log.map Commit.op) = (c.rl, log.map Commit.ret) ∧
    (∀ (i : Nat) (t : Thread), c.threads[i]? = some t →
      progs[i]? = some ((commitsOf i log).map Commit.op ++ remaining t) ∧
      (commitsOf i log).map Commit.ret = t.rets ++ pending t) ∧
    (∀ (i j : Nat) (ti tj : Thread), c.threads[i]? = some ti → c.threads[j]? = some tj →
      ti.pc ≠ Pc.idle → tj.pc ≠ Pc.idle → i = j) ∧
    (∀ (i : Nat) (t : Thread) (seen : Int), c.threads[i]? = some t →
      t.pc = Pc.tested seen → seen = c.rl.tokens) ∧
    c.rl.tokens = rl.tokens - (grantsIn log : Nat) + (refillsIn log : Nat) ∧
    ((∀ e ∈ log, e.op = Op.allow) →
      log.map Commit.ret = burstResults rl.tokens.toNat log.length ∧
      (log.map Commit.ret).count true ≤ rl.tokens.toNat) := by
  have h := linearised_concurrentRun sched (start rl progs) [] (linearised_start rl progs)
  rw [hrun] at h
  simp only [List.nil_append] at h
  refine ⟨h.serial, h.order, ?_, h.fresh, serialRun_account log rl c.rl h.serial, ?_⟩
  · intro i j ti tj hi hj hpi hpj
    by_contra hne
    have := linearised_others_idle h hi hpi (fun hji => hne hji.symm) hj
    exact hpj this
  · intro hall
    have hops : ∀ op ∈ log.map Commit.op, op = Op.allow := by
      intro op hop
      obtain ⟨e, he, rfl⟩ := List.mem_map.mp hop
      exact hall e he
    have hs := serialRun_allow_only (log.map Commit.op) rl hops
    rw [h.serial, List.length_map] at hs
    simp only at hs
    refine ⟨hs, ?_⟩
    rw [hs]
    exact burstResults_count _ _

/-- Two callers contend for the one token of `NewRateLimiter(1, 1)` while a
tick is due; the second caller and the tick wait for the mutex.  The first
caller is granted, the second is denied, the tick then adds a token. -/
theorem allow_atomic_witness :
    concurrentRun (start (NewRateLimiter 1 1) [[Op.allow], [Op.allow], [Op.tick]])
        [0, 1, 0, 1, 0, 2, 0, 1, 1, 2, 1, 2, 1, 2, 2, 2, 2]
      = ({ rl := NewRateLimiter 1 1
           owner := none
           threads := [{ prog := [], pc := Pc.idle, rets := [true] },
                       { prog := [], pc := Pc.idle, rets := [false] },
                       { prog := [], pc := Pc.idle, rets := [true] }] },
         [{ thread := 0, op := Op.allow, ret := true },
          { thread := 1, op := Op.allow, ret := false },
          { thread := 2, op := Op.tick, ret := true }]) ∧
    serialRun (NewRateLimiter 1 1) [Op.allow, Op.allow, Op.tick]
      = (NewRateLimiter 1 1, [true, false, true]) :=
  ⟨by decide,
   (allow_atomic (NewRateLimiter 1 1) [[Op.allow], [Op.allow], [Op.tick]]
      [0, 1, 0, 1, 0, 2, 0, 1, 1, 2, 1, 2, 1, 2, 2, 2, 2]
      { rl := NewRateLimiter 1 1
        owner := none
        threads := [{ prog := [], pc := Pc.idle, rets := [true] },
                    { prog := [], pc := Pc.idle, rets := [false] },
                    { prog := [], pc := Pc.idle, rets := [true] }] }
      [{ thread := 0, op := Op.allow, ret := true },
       { thread := 1, op := Op.allow, ret := false },
       { thread := 2, op := Op.tick, ret := true }] (by decide)).1⟩

end RateLimiter
